import Mathlib

/-!
# Command-line composition layer of `micro` (`cmd/setup.go`)

A shallow embedding of `cmd/setup.go`: the command ordering
(`commandOrder`, `commands.Len/Swap/Less`, `sort.Sort`), the composition
functions `Setup` and `setup`, the `app.Before` hook installed by `setup`
and the fallback `app.Action` installed by `Setup`.

`sort.Sort` is the Go standard library routine the file calls; it is
embedded here as the quicksort / heapsort / insertion-sort routine of
`sort/sort.go` (the implementation shipped with the go1.13 - go1.18
toolchains that `micro/v2` was built with), generic over `sort.Interface`.
-/

namespace Micro

/-! ## Data model -/

/-- The two flag kinds used by `setup`: `ccli.BoolFlag` and `ccli.StringFlag`. -/
inductive FlagKind where
  | BoolFlag
  | StringFlag
  deriving DecidableEq, Repr

/-- A flag definition (`ccli.BoolFlag` / `ccli.StringFlag` literal).  `Value`
is the default, rendered as a string (`""` when the literal has none). -/
structure Flag where
  Kind : FlagKind
  Name : String
  Aliases : List String := []
  Usage : String := ""
  EnvVars : List String := []
  Value : String := ""
  deriving DecidableEq, Repr

/-- A command (`ccli.Command`): only the fields `setup.go` touches. -/
structure Command where
  Name : String
  Usage : String := ""
  Flags : List Flag := []
  deriving DecidableEq, Repr

/-! ## Command ordering -/

/-- The order in which commands are displayed (`commandOrder`). -/
def commandOrder : List String :=
  ["server", "new", "env", "login", "run", "logs", "call", "update", "kill",
   "store", "config", "auth", "status", "stream", "file"]

/-- The constant `math.MaxInt32`. -/
def MaxInt32 : Nat := 2147483647

/-- The map built at the top of `Less`: `for i, v := range order { index[v] = i }`.
A later entry overwrites an earlier one with the same key. -/
def indexMap (order : List String) : String → Option Nat :=
  (order.enum).foldl (fun index iv => fun k => if k = iv.2 then some iv.1 else index k)
    (fun _ => none)

/-- The value `iVal` / `jVal` of `Less`: `index[name]`, or `math.MaxInt32`
when the name is not a key of the map. -/
def rankIn (order : List String) (name : String) : Nat :=
  match indexMap order name with
  | some v => v
  | none => MaxInt32

/-- The type `commands []*ccli.Command`. -/
abbrev commands := List Command

/-- Method `commands.Len`. -/
def commands.Len (s : commands) : Nat := s.length

/-- Method `commands.Swap`: `s[i], s[j] = s[j], s[i]`.  (Go panics on an index
out of range; the embedding leaves the slice unchanged there.) -/
def commands.Swap (s : commands) (i j : Nat) : commands :=
  match s[i]?, s[j]? with
  | some ci, some cj => (s.set i cj).set j ci
  | _, _ => s

/-- Method `commands.Less`: `iVal < jVal`, the ranks of `s[i].Name` and
`s[j].Name` in `commandOrder`.  (Go panics on an index out of range; the
embedding answers `false` there.) -/
def commands.Less (s : commands) (i j : Nat) : Bool :=
  match s[i]?, s[j]? with
  | some ci, some cj => decide (rankIn commandOrder ci.Name < rankIn commandOrder cj.Name)
  | _, _ => false

/-! ## `sort.Sort` -/

/-- The interface `sort.Interface` over a collection type `σ`. -/
structure Interface (σ : Type) where
  Len : σ → Nat
  Less : σ → Nat → Nat → Bool
  Swap : σ → Nat → Nat → σ

/-- The inner loop of `insertionSort`:
`for j := i; j > a && data.Less(j, j-1); j-- { data.Swap(j, j-1) }`. -/
def insertionInner {σ : Type} (I : Interface σ) (a : Nat) : Nat → σ → σ
  | 0, data => data
  | j + 1, data =>
    if j + 1 > a && I.Less data (j + 1) j then
      insertionInner I a j (I.Swap data (j + 1) j)
    else data

/-- The routine `insertionSort(data, a, b)`: `for i := a + 1; i < b; i++ { ... }`. -/
def insertionSort {σ : Type} (I : Interface σ) (data : σ) (a b : Nat) : σ :=
  (List.range' (a + 1) (b - (a + 1))).foldl (fun d i => insertionInner I a i d) data

/-- The loop of `siftDown(data, lo, hi, first)`, started at `root`; `fuel`
bounds the number of iterations (the root index grows in every iteration). -/
def siftDownLoop {σ : Type} (I : Interface σ) (hi first : Nat) : Nat → Nat → σ → σ
  | 0, _, data => data
  | fuel + 1, root, data =>
    let child := 2 * root + 1
    if child ≥ hi then data
    else
      let child := if child + 1 < hi && I.Less data (first + child) (first + child + 1)
        then child + 1 else child
      if !I.Less data (first + root) (first + child) then data
      else siftDownLoop I hi first fuel child (I.Swap data (first + root) (first + child))

/-- The routine `siftDown(data, lo, hi, first)`. -/
def siftDown {σ : Type} (I : Interface σ) (data : σ) (lo hi first : Nat) : σ :=
  siftDownLoop I hi first hi lo data

/-- The routine `heapSort(data, a, b)`. -/
def heapSort {σ : Type} (I : Interface σ) (data : σ) (a b : Nat) : σ :=
  let first := a
  let lo := 0
  let hi := b - a
  -- for i := (hi - 1) / 2; i >= 0; i--  (the division truncates toward zero)
  let data := ((List.range ((hi - 1) / 2 + 1)).reverse).foldl
    (fun d i => siftDown I d i hi first) data
  -- for i := hi - 1; i >= 0; i--
  ((List.range hi).reverse).foldl
    (fun d i => siftDown I (I.Swap d first (first + i)) lo i first) data

/-- The routine `medianOfThree(data, m1, m0, m2)`. -/
def medianOfThree {σ : Type} (I : Interface σ) (data : σ) (m1 m0 m2 : Nat) : σ :=
  let data := if I.Less data m1 m0 then I.Swap data m1 m0 else data
  if I.Less data m2 m1 then
    let data := I.Swap data m2 m1
    if I.Less data m1 m0 then I.Swap data m1 m0 else data
  else data

/-- The loop `for ; a < c && data.Less(a, pivot); a++ {}`; returns the final `a`. -/
def scanLess {σ : Type} (I : Interface σ) (data : σ) (pivot c : Nat) : Nat → Nat → Nat
  | 0, a => a
  | fuel + 1, a => if a < c && I.Less data a pivot then scanLess I data pivot c fuel (a + 1) else a

/-- The loop `for ; b < c && !data.Less(pivot, b); b++ {}`; returns the final `b`. -/
def scanNotGreater {σ : Type} (I : Interface σ) (data : σ) (pivot c : Nat) : Nat → Nat → Nat
  | 0, b => b
  | fuel + 1, b =>
    if b < c && !I.Less data pivot b then scanNotGreater I data pivot c fuel (b + 1) else b

/-- The loop `for ; b < c && data.Less(pivot, c-1); c-- {}`; returns the final `c`. -/
def scanGreater {σ : Type} (I : Interface σ) (data : σ) (pivot b : Nat) : Nat → Nat → Nat
  | 0, c => c
  | fuel + 1, c =>
    if b < c && I.Less data pivot (c - 1) then scanGreater I data pivot b fuel (c - 1) else c

/-- The main partition loop of `doPivot` (`for { ... if b >= c { break } ... }`);
returns the data and the final `b`, `c`. -/
def partitionLoop {σ : Type} (I : Interface σ) (pivot : Nat) : Nat → σ → Nat → Nat → σ × Nat × Nat
  | 0, data, b, c => (data, b, c)
  | fuel + 1, data, b, c =>
    let b := scanNotGreater I data pivot c (c - b) b
    let c := scanGreater I data pivot b (c - b) c
    if b ≥ c then (data, b, c)
    else partitionLoop I pivot fuel (I.Swap data b (c - 1)) (b + 1) (c - 1)

/-- The loop `for ; a < b && !data.Less(b-1, pivot); b-- {}`; returns the final `b`. -/
def scanEqualDown {σ : Type} (I : Interface σ) (data : σ) (pivot a : Nat) : Nat → Nat → Nat
  | 0, b => b
  | fuel + 1, b =>
    if a < b && !I.Less data (b - 1) pivot then scanEqualDown I data pivot a fuel (b - 1) else b

/-- The duplicate-protection loop of `doPivot`; returns the data and the final `a`, `b`. -/
def protectLoop {σ : Type} (I : Interface σ) (pivot : Nat) : Nat → σ → Nat → Nat → σ × Nat × Nat
  | 0, data, a, b => (data, a, b)
  | fuel + 1, data, a, b =>
    let b := scanEqualDown I data pivot a (b - a) b
    let a := scanLess I data pivot b (b - a) a
    if a ≥ b then (data, a, b)
    else protectLoop I pivot fuel (I.Swap data a (b - 1)) (a + 1) (b - 1)

/-- The block `if hi-lo > 40 { .. }` of `doPivot`: Tukey's ninther, median of
three medians of three. -/
def ninther {σ : Type} (I : Interface σ) (data : σ) (lo hi : Nat) : σ :=
  let m := (lo + hi) / 2
  if hi - lo > 40 then
    let s := (hi - lo) / 8
    let data := medianOfThree I data lo (lo + s) (lo + 2 * s)
    let data := medianOfThree I data m (m - s) (m + s)
    medianOfThree I data (hi - 1) (hi - 1 - s) (hi - 1 - 2 * s)
  else data

/-- The block of `doPivot` that tests three points for equality to the pivot
(`dups := 0` and the three `if`s); returns the data, `b`, `c` and `dups > 1`. -/
def dupTests {σ : Type} (I : Interface σ) (data : σ) (lo hi b c : Nat) : σ × Nat × Nat × Bool :=
  let m := (lo + hi) / 2
  let pivot := lo
  let dups : Nat := 0
  -- (data, c, dups) after `if !data.Less(pivot, hi-1)`
  let r1 : σ × Nat × Nat :=
    if !I.Less data pivot (hi - 1) then (I.Swap data c (hi - 1), c + 1, dups + 1)
    else (data, c, dups)
  -- (b, dups) after `if !data.Less(b-1, pivot)`
  let r2 : Nat × Nat := if !I.Less r1.1 (b - 1) pivot then (b - 1, r1.2.2 + 1) else (b, r1.2.2)
  -- (data, b, dups) after `if !data.Less(m, pivot)`
  let r3 : σ × Nat × Nat :=
    if !I.Less r1.1 m pivot then (I.Swap r1.1 m (r2.1 - 1), r2.1 - 1, r2.2 + 1)
    else (r1.1, r2.1, r2.2)
  (r3.1, r3.2.1, r1.2.1, decide (r3.2.2 > 1))

/-- The routine `doPivot(data, lo, hi)`; returns the data with `(midlo, midhi)`. -/
def doPivot {σ : Type} (I : Interface σ) (data : σ) (lo hi : Nat) : σ × Nat × Nat :=
  let m := (lo + hi) / 2
  let data := ninther I data lo hi
  let data := medianOfThree I data lo m (hi - 1)
  let pivot := lo
  -- a, c := lo+1, hi-1; for ; a < c && data.Less(a, pivot); a++ {}
  let a := scanLess I data pivot (hi - 1) (hi - 1 - (lo + 1)) (lo + 1)
  -- b := a; for { .. }: the result is (data, b, c)
  let p := partitionLoop I pivot (hi - 1 - a + 1) data a (hi - 1)
  let protect := decide (hi - p.2.2 < 5)
  -- (data, b, c, protect) after `if !protect && hi-c < (hi-lo)/4 { .. }`
  let d := if !protect && hi - p.2.2 < (hi - lo) / 4 then dupTests I p.1 lo hi p.2.1 p.2.2
    else (p.1, p.2.1, p.2.2, protect)
  -- (data, a, b) after `if protect { for { .. } }`
  let q := if d.2.2.2 then protectLoop I pivot (d.2.1 - a + 1) d.1 a d.2.1 else (d.1, a, d.2.1)
  -- Swap pivot into middle
  (I.Swap q.1 pivot (q.2.2 - 1), q.2.2 - 1, d.2.2.1)

/-- The statements of `quickSort` after its loop (`if b-a > 1 { .. }`): a
ShellSort pass with gap 6 followed by `insertionSort`. -/
def quickSortTail {σ : Type} (I : Interface σ) (data : σ) (a b : Nat) : σ :=
  if b - a > 1 then
    -- for i := a + 6; i < b; i++ { if data.Less(i, i-6) { data.Swap(i, i-6) } }
    let data := (List.range' (a + 6) (b - (a + 6))).foldl
      (fun d i => if I.Less d i (i - 6) then I.Swap d i (i - 6) else d) data
    insertionSort I data a b
  else data

/-- The routine `quickSort(data, a, b, maxDepth)`.  An iteration of the loop
`for b-a > 12` is a tail call; `maxDepth` decreases on every iteration and on
every recursive call, which makes the recursion structural. -/
def quickSort {σ : Type} (I : Interface σ) : Nat → σ → Nat → Nat → σ
  | 0, data, a, b =>
    if b - a > 12 then
      -- maxDepth == 0
      heapSort I data a b
    else quickSortTail I data a b
  | maxDepth + 1, data, a, b =>
    if b - a > 12 then
      -- maxDepth--; mlo, mhi := doPivot(data, a, b)
      let p := doPivot I data a b
      if p.2.1 - a < b - p.2.2 then
        quickSort I maxDepth (quickSort I maxDepth p.1 a p.2.1) p.2.2 b
      else
        quickSort I maxDepth (quickSort I maxDepth p.1 p.2.2 b) a p.2.1
    else quickSortTail I data a b

/-- The loop of `maxDepth`: `for i := n; i > 0; i >>= 1 { depth++ }`. -/
def maxDepthLoop : Nat → Nat → Nat → Nat
  | 0, _, depth => depth
  | fuel + 1, i, depth => if i > 0 then maxDepthLoop fuel (i / 2) (depth + 1) else depth

/-- The routine `maxDepth(n)`: `2*ceil(lg(n+1))`. -/
def maxDepth (n : Nat) : Nat := maxDepthLoop n n 0 * 2

/-- The routine `sort.Sort(data)` (`Sort` is reserved in Lean, hence the name). -/
def sort_Sort {σ : Type} (I : Interface σ) (data : σ) : σ :=
  let n := I.Len data
  quickSort I (maxDepth n) data 0 n

/-- The `sort.Interface` implemented by `commands`. -/
def commandsInterface : Interface commands :=
  { Len := commands.Len, Less := commands.Less, Swap := commands.Swap }

/-! ## Flags registered by `setup` -/

/-- The base flag set appended to `app.Flags` by `setup`, in source order.
`DefaultURL` stands for `update.DefaultURL`. -/
def baseFlags (DefaultURL : String) : List Flag :=
  [ { Kind := .BoolFlag, Name := "local",
      Usage := "Enable local only development: Defaults to true." },
    { Kind := .BoolFlag, Name := "enable_acme",
      Usage := "Enables ACME support via Let's Encrypt. ACME hosts should also be specified.",
      EnvVars := ["MICRO_ENABLE_ACME"] },
    { Kind := .StringFlag, Name := "acme_hosts",
      Usage := "Comma separated list of hostnames to manage ACME certs for",
      EnvVars := ["MICRO_ACME_HOSTS"] },
    { Kind := .StringFlag, Name := "acme_provider",
      Usage := "The provider that will be used to communicate with Let's Encrypt. Valid options: autocert, certmagic",
      EnvVars := ["MICRO_ACME_PROVIDER"] },
    { Kind := .BoolFlag, Name := "enable_tls",
      Usage := "Enable TLS support. Expects cert and key file to be specified",
      EnvVars := ["MICRO_ENABLE_TLS"] },
    { Kind := .StringFlag, Name := "tls_cert_file",
      Usage := "Path to the TLS Certificate file",
      EnvVars := ["MICRO_TLS_CERT_FILE"] },
    { Kind := .StringFlag, Name := "tls_key_file",
      Usage := "Path to the TLS Key file",
      EnvVars := ["MICRO_TLS_KEY_FILE"] },
    { Kind := .StringFlag, Name := "tls_client_ca_file",
      Usage := "Path to the TLS CA file to verify clients against",
      EnvVars := ["MICRO_TLS_CLIENT_CA_FILE"] },
    { Kind := .StringFlag, Name := "api_address",
      Usage := "Set the api address e.g 0.0.0.0:8080",
      EnvVars := ["MICRO_API_ADDRESS"] },
    { Kind := .StringFlag, Name := "namespace",
      Usage := "Set the micro service namespace",
      EnvVars := ["MICRO_NAMESPACE"], Value := "micro" },
    { Kind := .StringFlag, Name := "proxy_address",
      Usage := "Proxy requests via the HTTP address specified",
      EnvVars := ["MICRO_PROXY_ADDRESS"] },
    { Kind := .StringFlag, Name := "web_address",
      Usage := "Set the web UI address e.g 0.0.0.0:8082",
      EnvVars := ["MICRO_WEB_ADDRESS"] },
    { Kind := .StringFlag, Name := "network",
      Usage := "Set the micro network name: local, go.micro",
      EnvVars := ["MICRO_NETWORK"] },
    { Kind := .StringFlag, Name := "network_address",
      Usage := "Set the micro network address e.g. :9093",
      EnvVars := ["MICRO_NETWORK_ADDRESS"] },
    { Kind := .StringFlag, Name := "gateway_address",
      Usage := "Set the micro default gateway address e.g. :9094",
      EnvVars := ["MICRO_GATEWAY_ADDRESS"] },
    { Kind := .StringFlag, Name := "tunnel_address",
      Usage := "Set the micro tunnel address e.g. :8083",
      EnvVars := ["MICRO_TUNNEL_ADDRESS"] },
    { Kind := .StringFlag, Name := "api_handler",
      Usage := "Specify the request handler to be used for mapping HTTP requests to services; \x7bapi, proxy, rpc\x7d",
      EnvVars := ["MICRO_API_HANDLER"] },
    { Kind := .StringFlag, Name := "api_namespace",
      Usage := "Set the namespace used by the API e.g. com.example.api",
      EnvVars := ["MICRO_API_NAMESPACE"] },
    { Kind := .StringFlag, Name := "web_namespace",
      Usage := "Set the namespace used by the Web proxy e.g. com.example.web",
      EnvVars := ["MICRO_WEB_NAMESPACE"] },
    { Kind := .StringFlag, Name := "web_url",
      Usage := "Set the host used for the web dashboard e.g web.example.com",
      EnvVars := ["MICRO_WEB_HOST"] },
    { Kind := .BoolFlag, Name := "enable_stats",
      Usage := "Enable stats",
      EnvVars := ["MICRO_ENABLE_STATS"] },
    { Kind := .BoolFlag, Name := "auto_update",
      Usage := "Enable automatic updates",
      EnvVars := ["MICRO_AUTO_UPDATE"] },
    { Kind := .StringFlag, Name := "update_url",
      Usage := "Set the url to retrieve system updates from",
      EnvVars := ["MICRO_UPDATE_URL"], Value := DefaultURL },
    { Kind := .BoolFlag, Name := "report_usage",
      Usage := "Report usage statistics",
      EnvVars := ["MICRO_REPORT_USAGE"], Value := "true" },
    { Kind := .StringFlag, Name := "env", Aliases := ["e"],
      Usage := "Override environment",
      EnvVars := ["MICRO_ENV"] } ]

/-! ## Invocation context, shared configuration, collaborators -/

/-- Error values (`error`), identified by their message. -/
abbrev Error := String

/-- A parsed invocation context (`*ccli.Context`): `flags` holds the parsed
value of every registered string flag, `Args` the positional arguments. -/
structure Context where
  flags : List (String × String)
  Args : List String
  deriving DecidableEq, Repr

/-- The call `ctx.String(name)`: the parsed value of the flag called `name`, and
`""` when no flag of that name is registered. -/
def Context.GetString (ctx : Context) (name : String) : String :=
  match ctx.flags.lookup name with
  | some v => v
  | none => ""

/-- The call `ctx.Args().First()`: the first positional argument, `""` when there is none. -/
def Context.First (ctx : Context) : String :=
  match ctx.Args with
  | [] => ""
  | x :: _ => x

/-- The package variables written by the binding step of the hook
(`api.Handler`, `api.Address`, `api.Namespace`, `proxy.Address`, `web.Address`,
`web.Namespace`, `web.Host`, `network.Address`, `tunnel.Address`). -/
structure Config where
  apiHandler : String
  apiAddress : String
  apiNamespace : String
  proxyAddress : String
  webAddress : String
  webNamespace : String
  webHost : String
  networkAddress : String
  tunnelAddress : String
  deriving DecidableEq, Repr

/-- Store options built by the hook: `gostore.Database(name)` and `gostore.Table(name)`. -/
inductive StoreOption where
  | Database (name : String)
  | Table (name : String)
  deriving DecidableEq, Repr

/-- An authorization rule (an element of `inauth.SystemRules`), identified by its ID. -/
abbrev Rule := String

/-- Calls the hook and the fallback action make on their collaborators, in the
order they are made. -/
inductive Event where
  | PluginInit (k : Nat)
  | SetupCommand
  | Println (msg : String)
  | StoreInit (opts : List StoreOption)
  | Grant (rule : Rule)
  | Spawn (path : String) (args : List String)
  deriving DecidableEq, Repr

/-- How a hook or action ends: it returns an `error` (`none` is `nil`), or the
process is terminated by `os.Exit(code)`. -/
inductive Outcome where
  | returned (err : Option Error)
  | exited (code : Nat)
  deriving DecidableEq, Repr

/-- The state a hook runs in: the package variables, the state `ω` of the
collaborators (plugins, store, auth backend), and the log of calls made. -/
structure HookState (ω : Type) where
  cfg : Config
  world : ω
  trace : List Event

/-- A `Before` hook (`func(ctx *ccli.Context) error`). -/
abbrev Hook (ω : Type) := Context → HookState ω → HookState ω × Outcome

/-- A plugin (`plugin.Plugin`): the three capabilities `setup` calls. -/
structure Plugin (ω : Type) where
  Flags : List Flag
  Commands : List Command
  Init : Context → ω → ω × Option Error

/-- The collaborators reached through `DefaultCmd`, `util` and `inauth`:
`DefaultCmd.App().Name`, `util.SetupCommand`, `(*DefaultCmd.Options().Store).Init`,
`(*DefaultCmd.Options().Auth).String` and `.Grant`, and the table `inauth.SystemRules`. -/
structure Collaborators (ω : Type) where
  AppName : String
  SetupCommand : Context → ω → ω
  StoreInit : List StoreOption → ω → ω
  AuthString : ω → String
  AuthGrant : Rule → ω → ω × Option Error
  SystemRules : List Rule

/-! ## The `app.Before` hook installed by `setup` -/

/-- Step 1 of the hook: the nine `if len(ctx.String(..)) > 0 { .. }` statements, in source order. -/
def bindFlags (ctx : Context) (cfg : Config) : Config :=
  let cfg := if (ctx.GetString "api_handler").length > 0
    then { cfg with apiHandler := ctx.GetString "api_handler" } else cfg
  let cfg := if (ctx.GetString "api_address").length > 0
    then { cfg with apiAddress := ctx.GetString "api_address" } else cfg
  let cfg := if (ctx.GetString "proxy_address").length > 0
    then { cfg with proxyAddress := ctx.GetString "proxy_address" } else cfg
  let cfg := if (ctx.GetString "web_address").length > 0
    then { cfg with webAddress := ctx.GetString "web_address" } else cfg
  let cfg := if (ctx.GetString "network_address").length > 0
    then { cfg with networkAddress := ctx.GetString "network_address" } else cfg
  let cfg := if (ctx.GetString "tunnel_address").length > 0
    then { cfg with tunnelAddress := ctx.GetString "tunnel_address" } else cfg
  let cfg := if (ctx.GetString "api_namespace").length > 0
    then { cfg with apiNamespace := ctx.GetString "api_namespace" } else cfg
  let cfg := if (ctx.GetString "web_namespace").length > 0
    then { cfg with webNamespace := ctx.GetString "web_namespace" } else cfg
  let cfg := if (ctx.GetString "web_host").length > 0
    then { cfg with webHost := ctx.GetString "web_host" } else cfg
  cfg

/-- Step 2 of the hook: `for _, p := range plugins { if err := p.Init(ctx); err != nil { return err } }`.
`k` is the position of the head of the list among all plugins.  The result is the
error of the first failing `Init`, or `none` when every `Init` succeeded. -/
def initPlugins {ω : Type} (ctx : Context) : List (Plugin ω) → Nat → HookState ω →
    HookState ω × Option Error
  | [], _, s => (s, none)
  | p :: ps, k, s =>
    let (w, err) := p.Init ctx s.world
    let s := { s with world := w, trace := s.trace ++ [Event.PluginInit k] }
    match err with
    | some e => (s, some e)
    | none => initPlugins ctx ps (k + 1) s

/-- The options computed by step 4 of the hook (`var opts []gostore.Option` and the two `if`s). -/
def storeOptions (AppName : String) (ctx : Context) : List StoreOption :=
  let opts : List StoreOption := []
  let opts := if (ctx.GetString "store_database").length = 0
    then opts ++ [StoreOption.Database AppName] else opts
  let opts := if (ctx.GetString "store_table").length = 0 then
      let table := AppName
      let table := if ctx.First.length > 0 then ctx.First else table
      opts ++ [StoreOption.Table table]
    else opts
  opts

/-- Step 4 of the hook: `if len(opts) > 0 { Store.Init(opts...) }`. -/
def storeStep {ω : Type} (env : Collaborators ω) (ctx : Context) (s : HookState ω) : HookState ω :=
  let opts := storeOptions env.AppName ctx
  if opts.length > 0 then
    { s with world := env.StoreInit opts s.world, trace := s.trace ++ [Event.StoreInit opts] }
  else s

/-- The loop `for _, rule := range inauth.SystemRules { if err := Grant(rule); err != nil { return err } }`. -/
def grantRules {ω : Type} (env : Collaborators ω) : List Rule → HookState ω →
    HookState ω × Option Error
  | [], s => (s, none)
  | rule :: rules, s =>
    let (w, err) := env.AuthGrant rule s.world
    let s := { s with world := w, trace := s.trace ++ [Event.Grant rule] }
    match err with
    | some e => (s, some e)
    | none => grantRules env rules s

/-- Step 5 of the hook: the `if Auth.String() == "jwt" { .. }` block followed by `return nil`. -/
def authStep {ω : Type} (env : Collaborators ω) (s : HookState ω) : HookState ω × Outcome :=
  if env.AuthString s.world = "jwt" then
    match grantRules env env.SystemRules s with
    | (s, some e) => (s, Outcome.returned (some e))
    | (s, none) => (s, Outcome.returned none)
  else (s, Outcome.returned none)

/-- The closure assigned to `app.Before` by `setup`; `before` is the hook that
was installed previously (`before := app.Before`). -/
def beforeHook {ω : Type} (env : Collaborators ω) (plugins : List (Plugin ω)) (before : Hook ω) :
    Hook ω :=
  fun ctx s =>
    let s := { s with cfg := bindFlags ctx s.cfg }
    match initPlugins ctx plugins 0 s with
    | (s, some err) => (s, Outcome.returned (some err))
    | (s, none) =>
      let s := { s with world := env.SetupCommand ctx s.world,
                        trace := s.trace ++ [Event.SetupCommand] }
      match before ctx s with
      | (s, Outcome.exited code) => (s, Outcome.exited code)
      | (s, Outcome.returned (some err)) =>
        -- fmt.Println(err); os.Exit(1)
        ({ s with trace := s.trace ++ [Event.Println err] }, Outcome.exited 1)
      | (s, Outcome.returned none) =>
        authStep env (storeStep env ctx s)

/-! ## `setup` and `Setup` -/

/-- The collaborators of the fallback action: `exec.LookPath`, the run of the
child process `exec.Command(v, args...).Run()`, and the two message helpers
`helper.MissingCommand` and `helper.UnexpectedCommand`. -/
structure ExecEnv where
  LookPath : String → Except Error String
  Run : String → List String → Option Error
  MissingCommand : Context → String
  UnexpectedCommand : Context → String

/-- An action (`func(c *ccli.Context) error`): the calls it makes and how it ends. -/
abbrev ActionFn := Context → List Event × Outcome

/-- A `ccli.App`: the fields `Setup` and `setup` touch. -/
structure App (ω : Type) where
  Flags : List Flag
  Commands : List Command
  Before : Hook ω
  Action : ActionFn

/-- The loop `for _, p := range plugins { .. }` of `setup`, appending plugin
flags and plugin commands. -/
def addPlugins {ω : Type} : List (Plugin ω) → App ω → App ω
  | [], app => app
  | p :: ps, app =>
    let app := if p.Flags.length > 0 then { app with Flags := app.Flags ++ p.Flags } else app
    let app := if p.Commands.length > 0
      then { app with Commands := app.Commands ++ p.Commands } else app
    addPlugins ps app

/-- The function `setup(app)`; `plugins` stands for `plugin.Plugins()`. -/
def setup {ω : Type} (DefaultURL : String) (env : Collaborators ω) (plugins : List (Plugin ω))
    (app : App ω) : App ω :=
  let app := { app with Flags := app.Flags ++ baseFlags DefaultURL }
  let app := addPlugins plugins app
  let before := app.Before
  { app with Before := beforeHook env plugins before }

/-- The synthetic command appended by `Setup`. -/
def initCommand : Command :=
  { Name := "init", Usage := "Run the micro operator", Flags := [] }

/-- The closure assigned to `app.Action` by `Setup`. -/
def fallbackAction (x : ExecEnv) : ActionFn :=
  fun c =>
    if c.Args.length > 0 then
      let command := c.First
      match x.LookPath command with
      | Except.error _ =>
        -- fmt.Println(helper.UnexpectedCommand(c)); os.Exit(1)
        ([Event.Println (x.UnexpectedCommand c)], Outcome.exited 1)
      | Except.ok v =>
        let args := c.Args.drop 1
        ([Event.Spawn v args], Outcome.returned (x.Run v args))
    else
      -- fmt.Println(helper.MissingCommand(c)); os.Exit(1)
      ([Event.Println (x.MissingCommand c)], Outcome.exited 1)

/-- The function `Setup(app)`; `Commands` is the package variable of that name. -/
def Setup {ω : Type} (DefaultURL : String) (env : Collaborators ω) (x : ExecEnv)
    (Commands : List Command) (plugins : List (Plugin ω)) (app : App ω) : App ω :=
  let app := Commands.foldl (fun app command => { app with Commands := app.Commands ++ [command] }) app
  let app := { app with Commands := app.Commands ++ [initCommand] }
  let app := { app with Commands := sort_Sort commandsInterface app.Commands }
  let app := { app with Action := fallbackAction x }
  setup DefaultURL env plugins app

/-! ## Specification vocabulary -/

/-- Runs a sequence of collaborator calls from world `w`, each of which must
succeed: the final world, or `none` as soon as one call returns an error. -/
def succeedAll {ω : Type} : List (ω → ω × Option Error) → ω → Option ω
  | [], w => some w
  | f :: fs, w =>
    match f w with
    | (w1, none) => succeedAll fs w1
    | (_, some _) => none

/-- The rank of a command: the value `Less` compares. -/
def Command.rank (c : Command) : Nat := rankIn commandOrder c.Name

/-- A command is listed when its name occurs in `commandOrder`. -/
def Command.listed (c : Command) : Bool := decide (c.Name ∈ commandOrder)

/-- Commands made from names, for concrete inputs. -/
def namedCommands (names : List String) : commands := names.map (fun n => { Name := n })

/-! ## Concrete collaborators used to instantiate the theorems -/

/-- The state in which the hook calls the previously installed hook: flags
bound, every plugin initialised (reaching world `w1`), `util.SetupCommand` run. -/
def stateBeforePrior {ω : Type} (env : Collaborators ω) (n : Nat) (ctx : Context)
    (s : HookState ω) (w1 : ω) : HookState ω :=
  { cfg := bindFlags ctx s.cfg, world := env.SetupCommand ctx w1,
    trace := s.trace ++ (List.range n).map Event.PluginInit ++ [Event.SetupCommand] }

/-- A plugin whose `Init` succeeds and counts the call in the world. -/
def okPlugin : Plugin Nat :=
  { Flags := [], Commands := [], Init := fun _ w => (w + 1, none) }

/-- A plugin whose `Init` fails with the given error. -/
def failingPlugin (e : Error) : Plugin Nat :=
  { Flags := [], Commands := [], Init := fun _ w => (w, some e) }

/-- Collaborators over a counter world: every call succeeds and adds to the
counter, except that `Grant` fails on the rule called `"deny"`. -/
def sampleEnv (authName : String) (rules : List Rule) : Collaborators Nat :=
  { AppName := "micro",
    SetupCommand := fun _ w => w,
    StoreInit := fun _ w => w + 100,
    AuthString := fun _ => authName,
    AuthGrant := fun r w => if r = "deny" then (w, some "denied") else (w + 1000, none),
    SystemRules := rules }

/-- A prior hook that succeeds without touching the state. -/
def okPrior : Hook Nat := fun _ s => (s, Outcome.returned none)

/-- A prior hook that fails with the given error. -/
def failingPrior (e : Error) : Hook Nat := fun _ s => (s, Outcome.returned (some e))

/-- The initial hook state used in the examples. -/
def sampleState : HookState Nat :=
  { cfg := { apiHandler := "", apiAddress := ":8080", apiNamespace := "", proxyAddress := "",
             webAddress := "", webNamespace := "", webHost := "", networkAddress := "",
             tunnelAddress := "" },
    world := 0, trace := [] }

/-- An executable search path that only knows `stub`, whose run fails with `exit status 7`. -/
def sampleExec : ExecEnv :=
  { LookPath := fun n => if n = "stub" then Except.ok "/usr/bin/stub" else Except.error "not found",
    Run := fun _ _ => some "exit status 7",
    MissingCommand := fun _ => "No command provided to micro. Please refer to 'micro --help'",
    UnexpectedCommand := fun c => "Unrecognized micro command: " ++ c.First }

/-! ## Specification vocabulary for `sort.Sort` -/

/-- What `sort.Sort` assumes of a `sort.Interface`, stated through a key
function `key data i` giving the rank of element `i`: on indices within
`Len`, `Less` compares keys, and `Swap` exchanges two keys and keeps `Len`. -/
structure Lawful {σ : Type} (I : Interface σ) (key : σ → Nat → Nat) : Prop where
  len_swap : ∀ s i j, i < I.Len s → j < I.Len s → I.Len (I.Swap s i j) = I.Len s
  key_swap : ∀ s i j k, i < I.Len s → j < I.Len s →
    key (I.Swap s i j) k = if k = i then key s j else if k = j then key s i else key s k
  less_iff : ∀ s i j, i < I.Len s → j < I.Len s → (I.Less s i j = true ↔ key s i < key s j)

/-- The collection `t` is obtained from `s` by a sequence of `Swap` calls on
indices within `[a, b)`. -/
inductive Reach {σ : Type} (I : Interface σ) (a b : Nat) : σ → σ → Prop where
  | refl (s : σ) : Reach I a b s s
  | step {s t : σ} (i j : Nat) : Reach I a b s t → a ≤ i → i < b → a ≤ j → j < b →
      Reach I a b s (I.Swap t i j)

/-- The keys of `s` are in ascending order on the index range `[a, b)`. -/
def SortedOn {σ : Type} (key : σ → Nat → Nat) (s : σ) (a b : Nat) : Prop :=
  ∀ i j, a ≤ i → i ≤ j → j < b → key s i ≤ key s j

/-- The heap property of `heapSort` on the offsets `[lo, hi)` from `first`: every
node `p ≥ lo` dominates its children `2p+1`, `2p+2` that lie below `hi`. -/
def HeapFrom {σ : Type} (key : σ → Nat → Nat) (s : σ) (first lo hi : Nat) : Prop :=
  ∀ p c, lo ≤ p → c < hi → (c = 2 * p + 1 ∨ c = 2 * p + 2) →
    key s (first + c) ≤ key s (first + p)

/-- The invariant of the loop of `siftDown` at `root = r`: the heap property
holds at every node but `r`, and the parent of `r` dominates the children of `r`. -/
def SiftInv {σ : Type} (key : σ → Nat → Nat) (s : σ) (first lo hi r : Nat) : Prop :=
  (∀ p c, lo ≤ p → c < hi → (c = 2 * p + 1 ∨ c = 2 * p + 2) → p ≠ r →
    key s (first + c) ≤ key s (first + p)) ∧
  (∀ g c, lo ≤ g → (r = 2 * g + 1 ∨ r = 2 * g + 2) → c < hi → (c = 2 * r + 1 ∨ c = 2 * r + 2) →
    key s (first + c) ≤ key s (first + g))

/-- The invariant of the main partition loop of `doPivot`: `data[lo]` is the
pivot `pv`, `data[lo < i < b] ≤ pv`, `data[c ≤ i < hi] ≥ pv`. -/
def PartInv {σ : Type} (key : σ → Nat → Nat) (s : σ) (lo hi pv b c : Nat) : Prop :=
  key s lo = pv ∧ (∀ k, lo < k → k < b → key s k ≤ pv) ∧
    (∀ k, c ≤ k → k < hi → pv ≤ key s k) ∧ lo + 1 ≤ b ∧ b ≤ c ∧ c + 1 ≤ hi

/-- The invariant of the duplicate handling of `doPivot`: as `PartInv`, with
`data[b ≤ i < c] = pv` in between. -/
def DupInv {σ : Type} (key : σ → Nat → Nat) (s : σ) (lo hi pv b c : Nat) : Prop :=
  key s lo = pv ∧ (∀ k, lo < k → k < b → key s k ≤ pv) ∧
    (∀ k, b ≤ k → k < c → key s k = pv) ∧
    (∀ k, c ≤ k → k < hi → pv ≤ key s k) ∧ lo + 1 ≤ b ∧ b ≤ c ∧ c ≤ hi

/-- The result of `doPivot` on `[lo, hi)`: `data[lo ≤ i < midlo] ≤ pv`,
`data[midlo ≤ i < midhi] = pv`, `data[midhi ≤ i < hi] ≥ pv` for some pivot `pv`,
with `lo ≤ midlo < midhi ≤ hi`. -/
def Partitioned {σ : Type} (key : σ → Nat → Nat) (s : σ) (lo hi midlo midhi : Nat) : Prop :=
  lo ≤ midlo ∧ midlo < midhi ∧ midhi ≤ hi ∧
    ∃ pv, (∀ k, lo ≤ k → k < midlo → key s k ≤ pv) ∧
      (∀ k, midlo ≤ k → k < midhi → key s k = pv) ∧
      (∀ k, midhi ≤ k → k < hi → pv ≤ key s k)

/-- The key of `commands` for `sort.Sort`: the rank of the command at index `i`
(`0` when the index is out of range). -/
def commands.key (s : commands) (i : Nat) : Nat :=
  match s[i]? with
  | some c => c.rank
  | none => 0

/-- The commands contributed by a list of plugins, in registration order. -/
def pluginCommands {ω : Type} : List (Plugin ω) → List Command
  | [] => []
  | p :: ps => p.Commands ++ pluginCommands ps

/-- A command table is in ascending priority rank: the commands listed in
`commandOrder` come first, then the unlisted ones, and the listed ones are in
`commandOrder`'s relative order. -/
def RankOrdered (l : List Command) : Prop :=
  l = l.filter (fun c => c.listed) ++ l.filter (fun c => !c.listed) ∧
    (l.filter (fun c => c.listed)).Pairwise
      (fun x y => commandOrder.indexOf x.Name ≤ commandOrder.indexOf y.Name)

/-- An application with no flags and no commands, whose hook and action do nothing. -/
def emptyApp : App Nat :=
  { Flags := [], Commands := [], Before := okPrior,
    Action := fun _ => ([], Outcome.returned none) }

/-- A plugin that contributes the commands of the given names and nothing else. -/
def commandPlugin (names : List String) : Plugin Nat :=
  { Flags := [], Commands := namedCommands names, Init := fun _ w => (w, none) }

end Micro

namespace Micro

/-! ## Correctness of `sort.Sort` for a lawful `sort.Interface` -/

section SortProofs

variable {σ : Type} {I : Interface σ} {key : σ → Nat → Nat}

theorem Reach.trans {a b : Nat} {s t u : σ} (h1 : Reach I a b s t) (h2 : Reach I a b t u) :
    Reach I a b s u := by
  induction h2 with
  | refl => exact h1
  | step i j _ hai hib haj hjb ih => exact Reach.step i j ih hai hib haj hjb

theorem Reach.mono {a b a' b' : Nat} {s t : σ} (h : Reach I a b s t) (ha : a' ≤ a)
    (hb : b ≤ b') : Reach I a' b' s t := by
  induction h with
  | refl => exact Reach.refl _
  | step i j _ hai hib haj hjb ih =>
    exact Reach.step i j ih (by omega) (by omega) (by omega) (by omega)

theorem Reach.swap {a b : Nat} (s : σ) (i j : Nat) (hai : a ≤ i) (hib : i < b) (haj : a ≤ j)
    (hjb : j < b) : Reach I a b s (I.Swap s i j) :=
  Reach.step i j (Reach.refl s) hai hib haj hjb

theorem Reach.len (hL : Lawful I key) {a b : Nat} {s t : σ} (h : Reach I a b s t)
    (hb : b ≤ I.Len s) : I.Len t = I.Len s := by
  induction h with
  | refl => rfl
  | step i j _ hai hib haj hjb ih =>
    rw [hL.len_swap _ i j (by omega) (by omega), ih]

theorem Reach.key_outside (hL : Lawful I key) {a b : Nat} {s t : σ} (h : Reach I a b s t)
    (hb : b ≤ I.Len s) (k : Nat) (hk : k < a ∨ b ≤ k) : key t k = key s k := by
  induction h with
  | refl => rfl
  | @step t' i j hr hai hib haj hjb ih =>
    have hlen := hr.len hL hb
    rw [hL.key_swap _ i j k (by omega) (by omega)]
    rw [if_neg (by omega), if_neg (by omega), ih]

theorem Reach.forall_key (hL : Lawful I key) {a b : Nat} {s t : σ} (h : Reach I a b s t)
    (hb : b ≤ I.Len s) (P : Nat → Prop) (hP : ∀ k, a ≤ k → k < b → P (key s k)) :
    ∀ k, a ≤ k → k < b → P (key t k) := by
  induction h with
  | refl => exact hP
  | @step t' i j hr hai hib haj hjb ih =>
    have hlen := hr.len hL hb
    intro k hak hkb
    rw [hL.key_swap _ i j k (by omega) (by omega)]
    split_ifs
    · exact ih j haj hjb
    · exact ih i hai hib
    · exact ih k hak hkb

/-- Sortedness of a range only depends on the keys in the range. -/
theorem SortedOn.congr {s t : σ} {a b : Nat} (h : SortedOn key s a b)
    (heq : ∀ k, a ≤ k → k < b → key t k = key s k) : SortedOn key t a b := by
  intro i j hai hij hjb
  rw [heq i hai (by omega), heq j (by omega) hjb]
  exact h i j hai hij hjb

/-- The invariant of the inner loop of `insertionSort` while the element
inserted sits at index `j` of the prefix `[a, i]`. -/
def InsertInv (key : σ → Nat → Nat) (s : σ) (a j i : Nat) : Prop :=
  SortedOn key s a j ∧ SortedOn key s j (i + 1) ∧
    ∀ p q, a ≤ p → p < j → j < q → q ≤ i → key s p ≤ key s q

theorem insertionInner_spec (hL : Lawful I key) (a i : Nat) :
    ∀ (j : Nat) (s : σ), a ≤ j → j ≤ i → i < I.Len s → InsertInv key s a j i →
      Reach I a (i + 1) s (insertionInner I a j s) ∧
        SortedOn key (insertionInner I a j s) a (i + 1) := by
  intro j
  induction j with
  | zero =>
    intro s haj _ _ hinv
    have ha : a = 0 := by omega
    subst ha
    exact ⟨Reach.refl _, hinv.2.1⟩
  | succ j ih =>
    intro s haj hji hlen ⟨h1, h2, h3⟩
    unfold insertionInner
    by_cases hc : (decide (j + 1 > a) && I.Less s (j + 1) j) = true
    · rw [if_pos hc]
      simp only [Bool.and_eq_true, decide_eq_true_eq] at hc
      obtain ⟨hgt, hless⟩ := hc
      have hlt : key s (j + 1) < key s j :=
        (hL.less_iff s (j + 1) j (by omega) (by omega)).mp hless
      have hk : ∀ k, key (I.Swap s (j + 1) j) k =
          if k = j + 1 then key s j else if k = j then key s (j + 1) else key s k :=
        fun k => hL.key_swap s (j + 1) j k (by omega) (by omega)
      have hlen' : I.Len (I.Swap s (j + 1) j) = I.Len s :=
        hL.len_swap s (j + 1) j (by omega) (by omega)
      have hinv' : InsertInv key (I.Swap s (j + 1) j) a j i := by
        refine ⟨?_, ?_, ?_⟩
        · intro p q hap hpq hq
          rw [hk p, hk q]
          split_ifs <;> first
            | omega
            | exact h1 _ _ (by omega) (by omega) (by omega)
        · intro p q hjp hpq hq
          rw [hk p, hk q]
          have e0 : key s (j + 1) ≤ key s q ∨ q < j + 1 := by
            by_cases hq1 : q < j + 1
            · exact Or.inr hq1
            · exact Or.inl (h2 _ _ (by omega) (by omega) (by omega))
          split_ifs <;> first
            | omega
            | exact h2 _ _ (by omega) (by omega) (by omega)
            | exact h3 _ _ (by omega) (by omega) (by omega) (by omega)
        · intro p q hap hpj hjq hqi
          rw [hk p, hk q]
          split_ifs <;> first
            | omega
            | exact h1 _ _ (by omega) (by omega) (by omega)
            | exact h3 _ _ (by omega) (by omega) (by omega) (by omega)
      obtain ⟨r1, r2⟩ := ih (I.Swap s (j + 1) j) (by omega) (by omega) (by omega) hinv'
      exact ⟨(Reach.swap s (j + 1) j (by omega) (by omega) (by omega) (by omega)).trans r1, r2⟩
    · rw [if_neg hc]
      refine ⟨Reach.refl _, ?_⟩
      simp only [Bool.and_eq_true, decide_eq_true_eq, not_and] at hc
      intro p q hap hpq hq
      by_cases hpj : p < j + 1
      · by_cases hqj : q < j + 1
        · exact h1 p q hap hpq hqj
        · have hgt : j + 1 > a := by omega
          have hnl : ¬ key s (j + 1) < key s j := fun hlt =>
            hc hgt ((hL.less_iff s (j + 1) j (by omega) (by omega)).mpr hlt)
          have e1 : key s p ≤ key s j := h1 p j hap (by omega) (by omega)
          have e2 : key s (j + 1) ≤ key s q := h2 (j + 1) q (by omega) (by omega) hq
          omega
      · exact h2 p q (by omega) hpq hq

theorem insertionSort_fold_spec (hL : Lawful I key) (a : Nat) :
    ∀ (n i : Nat) (s : σ), a ≤ i → i + n ≤ I.Len s → SortedOn key s a i →
      Reach I a (i + n) s ((List.range' i n).foldl (fun d i => insertionInner I a i d) s) ∧
        SortedOn key ((List.range' i n).foldl (fun d i => insertionInner I a i d) s) a (i + n) := by
  intro n
  induction n with
  | zero =>
    intro i s _ _ hs
    exact ⟨Reach.refl _, hs⟩
  | succ n ih =>
    intro i s hai hlen hs
    simp only [List.range'_succ, List.foldl_cons]
    have hinv : InsertInv key s a i i := by
      refine ⟨hs, ?_, ?_⟩
      · intro p q hp hpq hq
        have : p = q := by omega
        subst this
        exact Nat.le_refl _
      · intro p q _ _ h1 h2
        omega
    obtain ⟨r1, s1⟩ := insertionInner_spec hL a i i s hai (Nat.le_refl _) (by omega) hinv
    have hlen1 : I.Len (insertionInner I a i s) = I.Len s := r1.len hL (by omega)
    obtain ⟨r2, s2⟩ := ih (i + 1) (insertionInner I a i s) (by omega) (by omega) s1
    have e : i + 1 + n = i + (n + 1) := by omega
    rw [e] at r2 s2
    exact ⟨(r1.mono (Nat.le_refl _) (by omega)).trans r2, s2⟩

theorem insertionSort_spec (hL : Lawful I key) (s : σ) (a b : Nat) (hab : a ≤ b)
    (hb : b ≤ I.Len s) :
    Reach I a b s (insertionSort I s a b) ∧ SortedOn key (insertionSort I s a b) a b := by
  unfold insertionSort
  by_cases h : a + 1 ≤ b
  · have hs : SortedOn key s a (a + 1) := by
      intro p q hp hpq hq
      have : p = q := by omega
      subst this
      exact Nat.le_refl _
    obtain ⟨r, st⟩ := insertionSort_fold_spec hL a (b - (a + 1)) (a + 1) s (by omega) (by omega) hs
    have e : a + 1 + (b - (a + 1)) = b := by omega
    rw [e] at r st
    exact ⟨r, st⟩
  · have e : b - (a + 1) = 0 := by omega
    rw [e]
    refine ⟨Reach.refl _, ?_⟩
    intro p q hp hpq hq
    have : p = q := by omega
    subst this
    exact Nat.le_refl _

end SortProofs

end Micro

namespace Micro

section HeapProofs

variable {σ : Type} {I : Interface σ} {key : σ → Nat → Nat}

theorem siftDownLoop_spec (hL : Lawful I key) (first lo hi : Nat) :
    ∀ (fuel r : Nat) (s : σ), lo ≤ r → hi ≤ fuel + r → first + hi ≤ I.Len s →
      SiftInv key s first lo hi r →
      Reach I first (first + hi) s (siftDownLoop I hi first fuel r s) ∧
        HeapFrom key (siftDownLoop I hi first fuel r s) first lo hi := by
  intro fuel
  induction fuel with
  | zero =>
    intro r s _ hfuel _ hinv
    refine ⟨Reach.refl _, ?_⟩
    intro p c hp hc hpc
    exact hinv.1 p c hp hc hpc (by omega)
  | succ fuel ih =>
    intro r s hlo hfuel hlen hinv
    unfold siftDownLoop
    simp only []
    by_cases h1 : 2 * r + 1 ≥ hi
    · rw [if_pos h1]
      refine ⟨Reach.refl _, ?_⟩
      intro p c hp hc hpc
      by_cases hpr : p = r
      · omega
      · exact hinv.1 p c hp hc hpc hpr
    · rw [if_neg h1]
      -- the larger child
      obtain ⟨cs, hcs, hcr, hchi, hmax⟩ : ∃ cs,
          (if (decide (2 * r + 1 + 1 < hi) &&
              I.Less s (first + (2 * r + 1)) (first + (2 * r + 1) + 1)) = true
            then 2 * r + 1 + 1 else 2 * r + 1) = cs ∧
          (cs = 2 * r + 1 ∨ cs = 2 * r + 2) ∧ cs < hi ∧
          ∀ c, c < hi → (c = 2 * r + 1 ∨ c = 2 * r + 2) →
            key s (first + c) ≤ key s (first + cs) := by
        by_cases hc : (decide (2 * r + 1 + 1 < hi) &&
            I.Less s (first + (2 * r + 1)) (first + (2 * r + 1) + 1)) = true
        · refine ⟨2 * r + 2, by rw [if_pos hc], Or.inr rfl, ?_, ?_⟩
          · simp only [Bool.and_eq_true, decide_eq_true_eq] at hc
            omega
          · simp only [Bool.and_eq_true, decide_eq_true_eq] at hc
            have hlt := (hL.less_iff s _ _ (by omega) (by omega)).mp hc.2
            intro c _ hcc
            rcases hcc with h | h
            · subst h
              have e : first + (2 * r + 1) + 1 = first + (2 * r + 2) := by omega
              rw [e] at hlt
              omega
            · subst h
              exact Nat.le_refl _
        · refine ⟨2 * r + 1, by rw [if_neg hc], Or.inl rfl, by omega, ?_⟩
          intro c hchi hcc
          rcases hcc with h | h
          · subst h
            exact Nat.le_refl _
          · subst h
            simp only [Bool.and_eq_true, decide_eq_true_eq, not_and] at hc
            have hnl := hc (by omega)
            have hge : ¬ key s (first + (2 * r + 1)) < key s (first + (2 * r + 1) + 1) :=
              fun hlt => hnl ((hL.less_iff s _ _ (by omega) (by omega)).mpr hlt)
            have e : first + (2 * r + 1) + 1 = first + (2 * r + 2) := by omega
            rw [e] at hge
            omega
      rw [hcs]
      by_cases h2 : (!I.Less s (first + r) (first + cs)) = true
      · rw [if_pos h2]
        refine ⟨Reach.refl _, ?_⟩
        have hge : key s (first + cs) ≤ key s (first + r) := by
          simp only [Bool.not_eq_true', ← Bool.not_eq_true] at h2
          have : ¬ key s (first + r) < key s (first + cs) :=
            fun hlt => h2 ((hL.less_iff s _ _ (by omega) (by omega)).mpr hlt)
          omega
        intro p c hp hc hpc
        by_cases hpr : p = r
        · subst hpr
          exact Nat.le_trans (hmax c hc hpc) hge
        · exact hinv.1 p c hp hc hpc hpr
      · rw [if_neg h2]
        have hlt : key s (first + r) < key s (first + cs) := by
          simp only [Bool.not_eq_true', Bool.not_eq_false] at h2
          exact (hL.less_iff s _ _ (by omega) (by omega)).mp h2
        have hk : ∀ k, key (I.Swap s (first + r) (first + cs)) k =
            if k = first + r then key s (first + cs)
            else if k = first + cs then key s (first + r) else key s k :=
          fun k => hL.key_swap s _ _ k (by omega) (by omega)
        have hlen' : I.Len (I.Swap s (first + r) (first + cs)) = I.Len s :=
          hL.len_swap s _ _ (by omega) (by omega)
        have hinv' : SiftInv key (I.Swap s (first + r) (first + cs)) first lo hi cs := by
          refine ⟨?_, ?_⟩
          · intro p c hp hc hpc hpcs
            rw [hk (first + c), hk (first + p)]
            by_cases hpr : p = r
            · subst hpr
              have e1 := hmax c hc hpc
              split_ifs <;> omega
            · have e1 := hinv.1 p c hp hc hpc hpr
              by_cases hcr2 : c = r
              · subst hcr2
                have e2 := hinv.2 p cs hp hpc hchi hcr
                split_ifs <;> omega
              · split_ifs <;> omega
          · intro g c hg hgc hc hcc
            have hgr : g = r := by omega
            subst hgr
            have e1 := hinv.1 cs c (by omega) hc hcc (by omega)
            rw [hk (first + c), hk (first + g)]
            split_ifs <;> omega
        obtain ⟨r1, r2⟩ := ih cs (I.Swap s (first + r) (first + cs)) (by omega) (by omega)
          (by omega) hinv'
        exact ⟨(Reach.swap s _ _ (by omega) (by omega) (by omega) (by omega)).trans r1, r2⟩

theorem siftDown_spec (hL : Lawful I key) (s : σ) (first lo hi : Nat)
    (hlen : first + hi ≤ I.Len s) (hinv : SiftInv key s first lo hi lo) :
    Reach I first (first + hi) s (siftDown I s lo hi first) ∧
      HeapFrom key (siftDown I s lo hi first) first lo hi :=
  siftDownLoop_spec hL first lo hi hi lo s (Nat.le_refl _) (by omega) hlen hinv

theorem heap_root_max {s : σ} {first n : Nat} (h : HeapFrom key s first 0 n) :
    ∀ c, c < n → key s (first + c) ≤ key s (first + 0) := by
  intro c
  induction c using Nat.strong_induction_on with
  | _ c ih =>
    intro hc
    by_cases h0 : c = 0
    · subst h0
      exact Nat.le_refl _
    · have hp : c = 2 * ((c - 1) / 2) + 1 ∨ c = 2 * ((c - 1) / 2) + 2 := by omega
      have e1 := h ((c - 1) / 2) c (Nat.zero_le _) hc hp
      have e2 := ih ((c - 1) / 2) (by omega) (by omega)
      omega

theorem heapSort_build_spec (hL : Lawful I key) (first hi : Nat) :
    ∀ (n : Nat) (s : σ), first + hi ≤ I.Len s → HeapFrom key s first n hi →
      Reach I first (first + hi) s
          (((List.range n).reverse).foldl (fun d i => siftDown I d i hi first) s) ∧
        HeapFrom key (((List.range n).reverse).foldl (fun d i => siftDown I d i hi first) s)
          first 0 hi := by
  intro n
  induction n with
  | zero =>
    intro s _ h
    exact ⟨Reach.refl _, h⟩
  | succ n ih =>
    intro s hlen h
    rw [List.range_succ, List.reverse_append]
    simp only [List.reverse_cons, List.reverse_nil, List.nil_append, List.singleton_append,
      List.foldl_cons]
    have hinv : SiftInv key s first n hi n := by
      refine ⟨?_, ?_⟩
      · intro p c hp hc hpc hpn
        exact h p c (by omega) hc hpc
      · intro g c hg hgn _ _
        omega
    obtain ⟨r1, h1⟩ := siftDown_spec hL s first n hi hlen hinv
    have hlen1 := r1.len hL hlen
    obtain ⟨r2, h2⟩ := ih (siftDown I s n hi first) (by omega) h1
    exact ⟨r1.trans r2, h2⟩

theorem heapSort_pop_spec (hL : Lawful I key) (first hi : Nat) :
    ∀ (n : Nat) (s : σ), n ≤ hi → first + hi ≤ I.Len s → HeapFrom key s first 0 n →
      SortedOn key s (first + n) (first + hi) →
      (∀ p q, first ≤ p → p < first + n → first + n ≤ q → q < first + hi → key s p ≤ key s q) →
      Reach I first (first + hi) s
          (((List.range n).reverse).foldl
            (fun d i => siftDown I (I.Swap d first (first + i)) 0 i first) s) ∧
        SortedOn key (((List.range n).reverse).foldl
            (fun d i => siftDown I (I.Swap d first (first + i)) 0 i first) s)
          first (first + hi) := by
  intro n
  induction n with
  | zero =>
    intro s _ _ _ hs _
    exact ⟨Reach.refl _, hs⟩
  | succ n ih =>
    intro s hn hlen hheap hsorted hsplit
    rw [List.range_succ, List.reverse_append]
    simp only [List.reverse_cons, List.reverse_nil, List.nil_append, List.singleton_append,
      List.foldl_cons]
    have hk : ∀ k, key (I.Swap s first (first + n)) k =
        if k = first then key s (first + n)
        else if k = first + n then key s first else key s k :=
      fun k => hL.key_swap s _ _ k (by omega) (by omega)
    have hlen1 : I.Len (I.Swap s first (first + n)) = I.Len s :=
      hL.len_swap s _ _ (by omega) (by omega)
    have hmax := heap_root_max hheap
    have hmax' : ∀ k, first ≤ k → k < first + (n + 1) → key s k ≤ key s first := by
      intro k hk1 hk2
      have := hmax (k - first) (by omega)
      have e : first + (k - first) = k := by omega
      rw [e] at this
      exact this
    have hinv : SiftInv key (I.Swap s first (first + n)) first 0 n 0 := by
      refine ⟨?_, ?_⟩
      · intro p c _ hc hpc hp0
        have e1 := hheap p c (Nat.zero_le _) (by omega) hpc
        rw [hk (first + c), hk (first + p)]
        split_ifs <;> omega
      · intro g c _ hg _ _
        omega
    obtain ⟨r1, h1⟩ := siftDown_spec hL (I.Swap s first (first + n)) first 0 n (by omega) hinv
    have hout := fun k hk => r1.key_outside hL (by omega) k hk
    have hlen2 := r1.len hL (by omega : first + n ≤ I.Len (I.Swap s first (first + n)))
    have hsorted' : SortedOn key (siftDown I (I.Swap s first (first + n)) 0 n first)
        (first + n) (first + hi) := by
      intro p q hp hpq hq
      rw [hout p (Or.inr hp), hout q (Or.inr (by omega)), hk p, hk q]
      by_cases hpn : p = first + n
      · have e1 : ∀ q', first + (n + 1) ≤ q' → q' < first + hi → key s first ≤ key s q' :=
          fun q' h1 h2 => hsplit first q' (Nat.le_refl _) (by omega) h1 h2
        by_cases hqn : q = first + n
        · subst hpn; subst hqn
          exact Nat.le_refl _
        · have e2 := e1 q (by omega) hq
          have e3 := hmax' (first + n) (by omega) (by omega)
          split_ifs <;> omega
      · have e1 := hsorted p q (by omega) hpq hq
        split_ifs <;> omega
    have hsplit' : ∀ p q, first ≤ p → p < first + n → first + n ≤ q → q < first + hi →
        key (siftDown I (I.Swap s first (first + n)) 0 n first) p ≤
          key (siftDown I (I.Swap s first (first + n)) 0 n first) q := by
      intro p q hp1 hp2 hq1 hq2
      rw [hout q (Or.inr hq1)]
      refine r1.forall_key hL (by omega) (fun v => v ≤ key (I.Swap s first (first + n)) q) ?_
        p hp1 hp2
      intro k hk1 hk2
      rw [hk k, hk q]
      have e1 := hmax' k hk1 (by omega)
      have e2 := hmax' (first + n) (by omega) (by omega)
      by_cases hqn : q = first + n
      · split_ifs <;> omega
      · have e3 := hsplit k q hk1 (by omega) (by omega) hq2
        have e4 := hsplit (first + n) q (by omega) (by omega) (by omega) hq2
        split_ifs <;> omega
    obtain ⟨r2, h2⟩ := ih (siftDown I (I.Swap s first (first + n)) 0 n first) (by omega)
      (by omega) h1 hsorted' hsplit'
    refine ⟨?_, h2⟩
    exact ((Reach.swap s first (first + n) (by omega) (by omega) (by omega) (by omega)).trans
      (r1.mono (Nat.le_refl _) (by omega))).trans r2

theorem heapSort_spec (hL : Lawful I key) (s : σ) (a b : Nat) (hab : a ≤ b)
    (hb : b ≤ I.Len s) :
    Reach I a b s (heapSort I s a b) ∧ SortedOn key (heapSort I s a b) a b := by
  unfold heapSort
  simp only []
  have hvac : HeapFrom key s a ((b - a - 1) / 2 + 1) (b - a) := by
    intro p c hp hc hpc
    omega
  obtain ⟨r1, h1⟩ := heapSort_build_spec hL a (b - a) ((b - a - 1) / 2 + 1) s (by omega) hvac
  have hlen1 := r1.len hL (by omega)
  obtain ⟨r2, h2⟩ := heapSort_pop_spec hL a (b - a) (b - a) _ (Nat.le_refl _) (by omega) h1
    (by intro p q hp hpq hq; omega) (by intro p q _ _ _ _; omega)
  have e : a + (b - a) = b := by omega
  rw [e] at r1 r2 h2
  exact ⟨r1.trans r2, h2⟩

end HeapProofs

end Micro

namespace Micro

section PivotProofs

variable {σ : Type} {I : Interface σ} {key : σ → Nat → Nat}

theorem shellPass_spec (a b : Nat) :
    ∀ (n i : Nat) (s : σ), a + 6 ≤ i → i + n ≤ b →
      Reach I a b s ((List.range' i n).foldl
        (fun d i => if I.Less d i (i - 6) then I.Swap d i (i - 6) else d) s) := by
  intro n
  induction n with
  | zero =>
    intro i s _ _
    exact Reach.refl _
  | succ n ih =>
    intro i s hi hn
    simp only [List.range'_succ, List.foldl_cons]
    by_cases hc : I.Less s i (i - 6) = true
    · rw [if_pos hc]
      exact (Reach.swap s i (i - 6) (by omega) (by omega) (by omega) (by omega)).trans
        (ih (i + 1) _ (by omega) (by omega))
    · rw [if_neg hc]
      exact ih (i + 1) s (by omega) (by omega)

theorem medianOfThree_spec (hL : Lawful I key) (s : σ) (a b m1 m0 m2 : Nat)
    (hb : b ≤ I.Len s) (h1 : a ≤ m1 ∧ m1 < b) (h0 : a ≤ m0 ∧ m0 < b) (h2 : a ≤ m2 ∧ m2 < b) :
    Reach I a b s (medianOfThree I s m1 m0 m2) ∧
      (m2 ≠ m1 → m2 ≠ m0 → key (medianOfThree I s m1 m0 m2) m1 ≤
        key (medianOfThree I s m1 m0 m2) m2) := by
  unfold medianOfThree
  simp only []
  -- first comparison
  obtain ⟨t, ht, hr1, hlen1, hk1⟩ : ∃ t, (if I.Less s m1 m0 = true then I.Swap s m1 m0 else s) = t ∧
      Reach I a b s t ∧ I.Len t = I.Len s ∧ (m2 ≠ m1 → m2 ≠ m0 → key t m0 ≤ key t m1) := by
    by_cases hc : I.Less s m1 m0 = true
    · refine ⟨_, rfl, ?_, ?_, ?_⟩
      · rw [if_pos hc]
        exact Reach.swap s m1 m0 h1.1 h1.2 h0.1 h0.2
      · rw [if_pos hc]
        exact hL.len_swap s m1 m0 (by omega) (by omega)
      · intro _ _
        rw [if_pos hc, hL.key_swap s m1 m0 m0 (by omega) (by omega),
          hL.key_swap s m1 m0 m1 (by omega) (by omega)]
        have := (hL.less_iff s m1 m0 (by omega) (by omega)).mp hc
        split_ifs <;> omega
    · refine ⟨_, rfl, ?_, ?_, ?_⟩
      · rw [if_neg hc]
        exact Reach.refl _
      · rw [if_neg hc]
      · intro _ _
        rw [if_neg hc]
        have : ¬ key s m1 < key s m0 :=
          fun hlt => hc ((hL.less_iff s m1 m0 (by omega) (by omega)).mpr hlt)
        omega
  rw [ht]
  by_cases hc2 : I.Less t m2 m1 = true
  · rw [if_pos hc2]
    have hlt2 := (hL.less_iff t m2 m1 (by omega) (by omega)).mp hc2
    have hlen2 : I.Len (I.Swap t m2 m1) = I.Len t := hL.len_swap t m2 m1 (by omega) (by omega)
    have hk2 : ∀ k, key (I.Swap t m2 m1) k =
        if k = m2 then key t m1 else if k = m1 then key t m2 else key t k :=
      fun k => hL.key_swap t m2 m1 k (by omega) (by omega)
    have hr2 : Reach I a b s (I.Swap t m2 m1) :=
      hr1.trans (Reach.swap t m2 m1 h2.1 h2.2 h1.1 h1.2)
    by_cases hc3 : I.Less (I.Swap t m2 m1) m1 m0 = true
    · rw [if_pos hc3]
      refine ⟨hr2.trans (Reach.swap _ m1 m0 h1.1 h1.2 h0.1 h0.2), ?_⟩
      intro hne1 hne0
      have e1 := hk1 hne1 hne0
      rw [hL.key_swap _ m1 m0 m1 (by omega) (by omega),
        hL.key_swap _ m1 m0 m2 (by omega) (by omega), hk2 m0, hk2 m2]
      split_ifs <;> omega
    · rw [if_neg hc3]
      refine ⟨hr2, ?_⟩
      intro hne1 hne0
      rw [hk2 m1, hk2 m2]
      split_ifs <;> omega
  · rw [if_neg hc2]
    refine ⟨hr1, ?_⟩
    intro _ _
    have : ¬ key t m2 < key t m1 :=
      fun hlt => hc2 ((hL.less_iff t m2 m1 (by omega) (by omega)).mpr hlt)
    omega

theorem scanLess_spec (hL : Lawful I key) (s : σ) (pivot c : Nat) (hp : pivot < I.Len s)
    (hc : c ≤ I.Len s) :
    ∀ (fuel a : Nat), a ≤ scanLess I s pivot c fuel a ∧
      (a ≤ c → scanLess I s pivot c fuel a ≤ c) ∧
      (∀ k, a ≤ k → k < scanLess I s pivot c fuel a → key s k < key s pivot) ∧
      (c - a ≤ fuel → scanLess I s pivot c fuel a < c →
        ¬ key s (scanLess I s pivot c fuel a) < key s pivot) := by
  intro fuel
  induction fuel with
  | zero =>
    intro a
    refine ⟨Nat.le_refl _, fun h => h, ?_, ?_⟩
    · intro k h1 h2
      simp only [scanLess] at h2
      omega
    · intro h1 h2
      simp only [scanLess] at h2
      omega
  | succ fuel ih =>
    intro a
    unfold scanLess
    by_cases hcond : (decide (a < c) && I.Less s a pivot) = true
    · rw [if_pos hcond]
      simp only [Bool.and_eq_true, decide_eq_true_eq] at hcond
      have hlt := (hL.less_iff s a pivot (by omega) hp).mp hcond.2
      obtain ⟨i1, i2, i3, i4⟩ := ih (a + 1)
      refine ⟨by omega, fun _ => i2 (by omega), ?_, fun h1 h2 => i4 (by omega) h2⟩
      intro k h1 h2
      by_cases hka : k = a
      · subst hka; exact hlt
      · exact i3 k (by omega) h2
    · rw [if_neg hcond]
      simp only [Bool.and_eq_true, decide_eq_true_eq, not_and] at hcond
      refine ⟨Nat.le_refl _, fun h => h, fun k h1 h2 => by omega, ?_⟩
      intro _ h2 hlt
      exact hcond h2 ((hL.less_iff s a pivot (by omega) hp).mpr hlt)

theorem scanNotGreater_spec (hL : Lawful I key) (s : σ) (pivot c : Nat) (hp : pivot < I.Len s)
    (hc : c ≤ I.Len s) :
    ∀ (fuel b : Nat), b ≤ scanNotGreater I s pivot c fuel b ∧
      (b ≤ c → scanNotGreater I s pivot c fuel b ≤ c) ∧
      (∀ k, b ≤ k → k < scanNotGreater I s pivot c fuel b → key s k ≤ key s pivot) ∧
      (c - b ≤ fuel → scanNotGreater I s pivot c fuel b < c →
        key s pivot < key s (scanNotGreater I s pivot c fuel b)) := by
  intro fuel
  induction fuel with
  | zero =>
    intro b
    refine ⟨Nat.le_refl _, fun h => h, ?_, ?_⟩
    · intro k h1 h2
      simp only [scanNotGreater] at h2
      omega
    · intro h1 h2
      simp only [scanNotGreater] at h2
      omega
  | succ fuel ih =>
    intro b
    unfold scanNotGreater
    by_cases hcond : (decide (b < c) && !I.Less s pivot b) = true
    · rw [if_pos hcond]
      simp only [Bool.and_eq_true, decide_eq_true_eq, Bool.not_eq_true'] at hcond
      have hnlt : ¬ key s pivot < key s b := fun hlt => by
        have := (hL.less_iff s pivot b hp (by omega)).mpr hlt
        rw [hcond.2] at this
        exact Bool.noConfusion this
      obtain ⟨i1, i2, i3, i4⟩ := ih (b + 1)
      refine ⟨by omega, fun _ => i2 (by omega), ?_, fun h1 h2 => i4 (by omega) h2⟩
      intro k h1 h2
      by_cases hkb : k = b
      · subst hkb; omega
      · exact i3 k (by omega) h2
    · rw [if_neg hcond]
      simp only [Bool.and_eq_true, decide_eq_true_eq, Bool.not_eq_true', not_and,
        Bool.not_eq_false] at hcond
      refine ⟨Nat.le_refl _, fun h => h, fun k h1 h2 => by omega, ?_⟩
      intro _ h2
      exact (hL.less_iff s pivot b hp (by omega)).mp (hcond h2)

theorem scanGreater_spec (hL : Lawful I key) (s : σ) (pivot b : Nat) (hp : pivot < I.Len s) :
    ∀ (fuel c : Nat), c ≤ I.Len s → scanGreater I s pivot b fuel c ≤ c ∧
      (b ≤ c → b ≤ scanGreater I s pivot b fuel c) ∧
      (∀ k, scanGreater I s pivot b fuel c ≤ k → k < c → key s pivot < key s k) ∧
      (c - b ≤ fuel → b < scanGreater I s pivot b fuel c →
        ¬ key s pivot < key s (scanGreater I s pivot b fuel c - 1)) := by
  intro fuel
  induction fuel with
  | zero =>
    intro c _
    refine ⟨Nat.le_refl _, fun h => h, ?_, ?_⟩
    · intro k h1 h2
      simp only [scanGreater] at h1
      omega
    · intro h1 h2
      simp only [scanGreater] at h2
      omega
  | succ fuel ih =>
    intro c hc
    unfold scanGreater
    by_cases hcond : (decide (b < c) && I.Less s pivot (c - 1)) = true
    · rw [if_pos hcond]
      simp only [Bool.and_eq_true, decide_eq_true_eq] at hcond
      have hlt := (hL.less_iff s pivot (c - 1) hp (by omega)).mp hcond.2
      obtain ⟨i1, i2, i3, i4⟩ := ih (c - 1) (by omega)
      refine ⟨by omega, fun _ => i2 (by omega), ?_, fun h1 h2 => i4 (by omega) h2⟩
      intro k h1 h2
      by_cases hkc : k = c - 1
      · subst hkc; exact hlt
      · exact i3 k h1 (by omega)
    · rw [if_neg hcond]
      simp only [Bool.and_eq_true, decide_eq_true_eq, not_and] at hcond
      refine ⟨Nat.le_refl _, fun h => h, fun k h1 h2 => by omega, ?_⟩
      intro _ h2 hlt
      exact hcond h2 ((hL.less_iff s pivot (c - 1) hp (by omega)).mpr hlt)

theorem scanEqualDown_spec (hL : Lawful I key) (s : σ) (pivot a : Nat) (hp : pivot < I.Len s) :
    ∀ (fuel b : Nat), b ≤ I.Len s → scanEqualDown I s pivot a fuel b ≤ b ∧
      (a ≤ b → a ≤ scanEqualDown I s pivot a fuel b) ∧
      (∀ k, scanEqualDown I s pivot a fuel b ≤ k → k < b → ¬ key s k < key s pivot) ∧
      (b ≤ a → scanEqualDown I s pivot a fuel b = b) := by
  intro fuel
  induction fuel with
  | zero =>
    intro b _
    refine ⟨Nat.le_refl _, fun h => h, ?_, fun _ => rfl⟩
    intro k h1 h2
    simp only [scanEqualDown] at h1
    omega
  | succ fuel ih =>
    intro b hb
    unfold scanEqualDown
    by_cases hcond : (decide (a < b) && !I.Less s (b - 1) pivot) = true
    · rw [if_pos hcond]
      simp only [Bool.and_eq_true, decide_eq_true_eq, Bool.not_eq_true'] at hcond
      have hnlt : ¬ key s (b - 1) < key s pivot := fun hlt => by
        have := (hL.less_iff s (b - 1) pivot (by omega) hp).mpr hlt
        rw [hcond.2] at this
        exact Bool.noConfusion this
      obtain ⟨i1, i2, i3, _⟩ := ih (b - 1) (by omega)
      refine ⟨by omega, fun _ => i2 (by omega), ?_, fun h => by omega⟩
      intro k h1 h2
      by_cases hkb : k = b - 1
      · subst hkb; exact hnlt
      · exact i3 k h1 (by omega)
    · rw [if_neg hcond]
      exact ⟨Nat.le_refl _, fun h => h, fun k h1 h2 => by omega, fun _ => rfl⟩

end PivotProofs

end Micro

namespace Micro

section PartitionProofs

variable {σ : Type} {I : Interface σ} {key : σ → Nat → Nat}

theorem partitionLoop_spec (hL : Lawful I key) (lo hi pv : Nat) :
    ∀ (fuel : Nat) (s : σ) (b c : Nat), hi ≤ I.Len s → PartInv key s lo hi pv b c →
      c - b + 1 ≤ fuel →
      Reach I lo hi s (partitionLoop I lo fuel s b c).1 ∧
        PartInv key (partitionLoop I lo fuel s b c).1 lo hi pv
          (partitionLoop I lo fuel s b c).2.1 (partitionLoop I lo fuel s b c).2.2 ∧
        (partitionLoop I lo fuel s b c).2.1 = (partitionLoop I lo fuel s b c).2.2 := by
  intro fuel
  induction fuel with
  | zero =>
    intro s b c _ _ hf
    omega
  | succ fuel ih =>
    intro s b c hlen hinv hf
    obtain ⟨hpv, hleft, hright, hlb, hbc, hchi⟩ := hinv
    unfold partitionLoop
    simp only []
    obtain ⟨n1, n2, n3, n4⟩ := scanNotGreater_spec hL s lo c (by omega) (by omega) (c - b) b
    generalize scanNotGreater I s lo c (c - b) b = b' at n1 n2 n3 n4 ⊢
    obtain ⟨g1, g2, g3, g4⟩ := scanGreater_spec hL s lo b' (by omega) (c - b') c (by omega)
    generalize scanGreater I s lo b' (c - b') c = c' at g1 g2 g3 g4 ⊢
    have hb'c := n2 hbc
    have hb'c' := g2 hb'c
    by_cases hex : b' ≥ c'
    · rw [if_pos hex]
      dsimp only
      refine ⟨Reach.refl _, ⟨hpv, ?_, ?_, by omega, by omega, by omega⟩, by omega⟩
      · intro k h1 h2
        by_cases hkb : k < b
        · exact hleft k h1 hkb
        · have := n3 k (by omega) h2
          omega
      · intro k h1 h2
        by_cases hkc : c ≤ k
        · exact hright k hkc h2
        · have := g3 k h1 (by omega)
          omega
    · rw [if_neg hex]
      have hgt : key s lo < key s b' := n4 (Nat.le_refl _) (by omega)
      have hle : ¬ key s lo < key s (c' - 1) := g4 (Nat.le_refl _) (by omega)
      have hne : b' ≠ c' - 1 := by
        intro h
        rw [h] at hgt
        exact hle hgt
      have hk : ∀ k, key (I.Swap s b' (c' - 1)) k =
          if k = b' then key s (c' - 1) else if k = c' - 1 then key s b' else key s k :=
        fun k => hL.key_swap s _ _ k (by omega) (by omega)
      have hlen' : I.Len (I.Swap s b' (c' - 1)) = I.Len s :=
        hL.len_swap s _ _ (by omega) (by omega)
      have hinv' : PartInv key (I.Swap s b' (c' - 1)) lo hi pv (b' + 1) (c' - 1) := by
        refine ⟨?_, ?_, ?_, by omega, by omega, by omega⟩
        · rw [hk lo, if_neg (by omega), if_neg (by omega)]
          exact hpv
        · intro k h1 h2
          rw [hk k]
          by_cases hkb : k < b
          · have := hleft k h1 hkb
            split_ifs <;> omega
          · by_cases hkb' : k = b'
            · rw [if_pos hkb']
              omega
            · have := n3 k (by omega) (by omega)
              split_ifs <;> omega
        · intro k h1 h2
          rw [hk k]
          by_cases hkc : c ≤ k
          · have := hright k hkc h2
            split_ifs <;> omega
          · by_cases hkc' : k = c' - 1
            · rw [if_neg (by omega), if_pos hkc']
              omega
            · have := g3 k (by omega) (by omega)
              split_ifs <;> omega
      obtain ⟨r1, r2, r3⟩ := ih (I.Swap s b' (c' - 1)) (b' + 1) (c' - 1) (by omega) hinv'
        (by omega)
      exact ⟨(Reach.swap s _ _ (by omega) (by omega) (by omega) (by omega)).trans r1, r2, r3⟩

theorem protectLoop_spec (hL : Lawful I key) (lo hi pv : Nat) :
    ∀ (fuel : Nat) (s : σ) (a b c : Nat), hi ≤ I.Len s → lo + 1 ≤ a →
      DupInv key s lo hi pv b c →
      Reach I lo hi s (protectLoop I lo fuel s a b).1 ∧
        DupInv key (protectLoop I lo fuel s a b).1 lo hi pv (protectLoop I lo fuel s a b).2.2 c := by
  intro fuel
  induction fuel with
  | zero =>
    intro s a b c _ _ hinv
    exact ⟨Reach.refl _, hinv⟩
  | succ fuel ih =>
    intro s a b c hlen hla hinv
    obtain ⟨hpv, hleft, hmid, hright, hlb, hbc, hchi⟩ := hinv
    unfold protectLoop
    simp only []
    obtain ⟨e1, e2, e3, e4⟩ := scanEqualDown_spec hL s lo a (by omega) (b - a) b (by omega)
    generalize scanEqualDown I s lo a (b - a) b = b' at e1 e2 e3 e4 ⊢
    obtain ⟨l1, l2, l3, l4⟩ := scanLess_spec hL s lo b' (by omega) (by omega) (b' - a) a
    generalize scanLess I s lo b' (b' - a) a = a' at l1 l2 l3 l4 ⊢
    have hb'lo : lo + 1 ≤ b' := by
      by_cases hab : a ≤ b
      · have := e2 hab
        omega
      · have := e4 (by omega)
        omega
    have hb'lo2 : b' < b → a ≤ b' := by
      intro hlt
      by_cases hab : a ≤ b
      · exact e2 hab
      · have := e4 (by omega)
        omega
    -- the state after the downward scan
    have hmid' : ∀ k, b' ≤ k → k < c → key s k = pv := by
      intro k h1 h2
      by_cases hkb : b ≤ k
      · exact hmid k hkb h2
      · have hge := e3 k h1 (by omega)
        have hle := hleft k (by omega) (by omega)
        omega
    by_cases hex : a' ≥ b'
    · rw [if_pos hex]
      dsimp only
      refine ⟨Reach.refl _, hpv, ?_, hmid', hright, hb'lo, by omega, hchi⟩
      intro k h1 h2
      exact hleft k h1 (by omega)
    · rw [if_neg hex]
      have hnl : ¬ key s a' < key s lo := l4 (Nat.le_refl _) (by omega)
      have hale : key s a' ≤ pv := hleft a' (by omega) (by omega)
      have hble : key s (b' - 1) ≤ pv := hleft (b' - 1) (by omega) (by omega)
      have hk : ∀ k, key (I.Swap s a' (b' - 1)) k =
          if k = a' then key s (b' - 1) else if k = b' - 1 then key s a' else key s k :=
        fun k => hL.key_swap s _ _ k (by omega) (by omega)
      have hlen' : I.Len (I.Swap s a' (b' - 1)) = I.Len s :=
        hL.len_swap s _ _ (by omega) (by omega)
      have hinv' : DupInv key (I.Swap s a' (b' - 1)) lo hi pv (b' - 1) c := by
        refine ⟨?_, ?_, ?_, ?_, by omega, by omega, hchi⟩
        · rw [hk lo, if_neg (by omega), if_neg (by omega)]
          exact hpv
        · intro k h1 h2
          rw [hk k]
          have := hleft k h1 (by omega)
          split_ifs <;> omega
        · intro k h1 h2
          rw [hk k]
          by_cases hkb : k = b' - 1
          · by_cases hka : k = a'
            · rw [if_pos hka]
              rw [← hkb, hka]
              omega
            · rw [if_neg hka, if_pos hkb]
              omega
          · have := hmid' k (by omega) h2
            rw [if_neg (by omega), if_neg hkb]
            exact this
        · intro k h1 h2
          rw [hk k, if_neg (by omega), if_neg (by omega)]
          exact hright k h1 h2
      obtain ⟨r1, r2⟩ := ih (I.Swap s a' (b' - 1)) (a' + 1) (b' - 1) c (by omega) (by omega)
        hinv'
      exact ⟨(Reach.swap s _ _ (by omega) (by omega) (by omega) (by omega)).trans r1, r2⟩

end PartitionProofs

end Micro

namespace Micro

section DoPivotProofs

variable {σ : Type} {I : Interface σ} {key : σ → Nat → Nat}

theorem ninther_spec (hL : Lawful I key) (s : σ) (lo hi : Nat) (hlen : hi ≤ I.Len s) :
    Reach I lo hi s (ninther I s lo hi) := by
  unfold ninther
  simp only []
  by_cases h : hi - lo > 40
  · rw [if_pos h]
    have r1 := (medianOfThree_spec hL s lo hi lo (lo + (hi - lo) / 8) (lo + 2 * ((hi - lo) / 8))
      hlen (by omega) (by omega) (by omega)).1
    have l1 := r1.len hL hlen
    have r2 := (medianOfThree_spec hL _ lo hi ((lo + hi) / 2) ((lo + hi) / 2 - (hi - lo) / 8)
      ((lo + hi) / 2 + (hi - lo) / 8) (by omega : hi ≤ I.Len (medianOfThree I s lo
        (lo + (hi - lo) / 8) (lo + 2 * ((hi - lo) / 8)))) (by omega) (by omega) (by omega)).1
    have l2 := r2.len hL (by omega)
    have r3 := (medianOfThree_spec hL _ lo hi (hi - 1) (hi - 1 - (hi - lo) / 8)
      (hi - 1 - 2 * ((hi - lo) / 8)) (by omega : hi ≤ I.Len (medianOfThree I (medianOfThree I s lo
        (lo + (hi - lo) / 8) (lo + 2 * ((hi - lo) / 8))) ((lo + hi) / 2)
        ((lo + hi) / 2 - (hi - lo) / 8) ((lo + hi) / 2 + (hi - lo) / 8)))
      (by omega) (by omega) (by omega)).1
    exact (r1.trans r2).trans r3
  · rw [if_neg h]
    exact Reach.refl _

theorem not_less_iff (hL : Lawful I key) (s : σ) (i j : Nat) (hi : i < I.Len s)
    (hj : j < I.Len s) : ((!I.Less s i j) = true) ↔ key s j ≤ key s i := by
  have h := hL.less_iff s i j hi hj
  cases hc : I.Less s i j with
  | true =>
    have := h.mp hc
    simp only [Bool.not_true, Bool.false_eq_true, false_iff]
    omega
  | false =>
    have : ¬ key s i < key s j := fun hlt => by
      have := h.mpr hlt
      rw [hc] at this
      exact Bool.noConfusion this
    simp only [Bool.not_false, true_iff]
    omega

theorem dupTests_spec (hL : Lawful I key) (s : σ) (lo hi pv b : Nat) (hn : lo + 12 < hi)
    (hlen : hi ≤ I.Len s) (hinv : PartInv key s lo hi pv b b)
    (h4 : hi - b < (hi - lo) / 4) :
    Reach I lo hi s (dupTests I s lo hi b b).1 ∧
      DupInv key (dupTests I s lo hi b b).1 lo hi pv (dupTests I s lo hi b b).2.1
        (dupTests I s lo hi b b).2.2.1 := by
  obtain ⟨hpv, hleft, hright, hlb, _, hchi⟩ := hinv
  unfold dupTests
  simp only []
  -- first test: data[hi-1] = pivot
  obtain ⟨r1, hr1, hreach1, hlen1, hinv1, hc1⟩ : ∃ r1 : σ × Nat × Nat,
      (if (!I.Less s lo (hi - 1)) = true then (I.Swap s b (hi - 1), b + 1, 0 + 1)
        else (s, b, 0)) = r1 ∧
      Reach I lo hi s r1.1 ∧ I.Len r1.1 = I.Len s ∧ DupInv key r1.1 lo hi pv b r1.2.1 ∧
      r1.2.1 ≤ b + 1 := by
    by_cases hc : (!I.Less s lo (hi - 1)) = true
    · refine ⟨_, rfl, ?_, ?_, ?_, ?_⟩
      · rw [if_pos hc]
        exact Reach.swap s b (hi - 1) (by omega) (by omega) (by omega) (by omega)
      · rw [if_pos hc]
        exact hL.len_swap s _ _ (by omega) (by omega)
      · rw [if_pos hc]
        dsimp only
        have hle := (not_less_iff hL s lo (hi - 1) (by omega) (by omega)).mp hc
        have hge := hright (hi - 1) (by omega) (by omega)
        have hk : ∀ k, key (I.Swap s b (hi - 1)) k =
            if k = b then key s (hi - 1) else if k = hi - 1 then key s b else key s k :=
          fun k => hL.key_swap s _ _ k (by omega) (by omega)
        refine ⟨?_, ?_, ?_, ?_, hlb, by omega, by omega⟩
        · rw [hk lo, if_neg (by omega), if_neg (by omega)]
          exact hpv
        · intro k h1 h2
          rw [hk k, if_neg (by omega), if_neg (by omega)]
          exact hleft k h1 h2
        · intro k h1 h2
          have : k = b := by omega
          rw [hk k, if_pos this]
          omega
        · intro k h1 h2
          rw [hk k, if_neg (by omega)]
          have e1 := hright k (by omega) h2
          have e2 := hright b (Nat.le_refl _) (by omega)
          split_ifs <;> omega
      · simp only [if_pos hc, le_refl]
    · refine ⟨_, rfl, ?_, ?_, ?_, ?_⟩
      · rw [if_neg hc]
        exact Reach.refl _
      · rw [if_neg hc]
      · rw [if_neg hc]
        dsimp only
        refine ⟨hpv, hleft, ?_, hright, hlb, Nat.le_refl _, by omega⟩
        intro k h1 h2
        omega
      · rw [if_neg hc]
        dsimp only
        omega
  rw [hr1]
  obtain ⟨hpv1, hleft1, hmid1, hright1, _, hbc1, hchi1⟩ := hinv1
  -- second test: data[b-1] = pivot
  obtain ⟨r2, hr2, hinv2, hb2, hb2'⟩ : ∃ r2 : Nat × Nat,
      (if (!I.Less r1.1 (b - 1) lo) = true then (b - 1, r1.2.2 + 1) else (b, r1.2.2)) = r2 ∧
      DupInv key r1.1 lo hi pv r2.1 r1.2.1 ∧ b - 1 ≤ r2.1 ∧ r2.1 ≤ b := by
    by_cases hc : (!I.Less r1.1 (b - 1) lo) = true
    · refine ⟨_, rfl, ?_, ?_, ?_⟩
      · rw [if_pos hc]
        dsimp only
        have hle := (not_less_iff hL r1.1 (b - 1) lo (by omega) (by omega)).mp hc
        have hge := hleft1 (b - 1) (by omega) (by omega)
        refine ⟨hpv1, ?_, ?_, hright1, by omega, by omega, hchi1⟩
        · intro k h1 h2
          exact hleft1 k h1 (by omega)
        · intro k h1 h2
          by_cases hkb : k = b - 1
          · rw [hkb]
            omega
          · exact hmid1 k (by omega) h2
      · rw [if_pos hc]
      · rw [if_pos hc]
        dsimp only
        omega
    · refine ⟨_, rfl, ?_, ?_, ?_⟩
      · rw [if_neg hc]
        exact ⟨hpv1, hleft1, hmid1, hright1, hlb, hbc1, hchi1⟩
      · rw [if_neg hc]
        dsimp only
        omega
      · rw [if_neg hc]
  rw [hr2]
  obtain ⟨hpv2, hleft2, hmid2, hright2, hlb2, hbc2, hchi2⟩ := hinv2
  -- third test: data[m] = pivot
  by_cases hc : (!I.Less r1.1 ((lo + hi) / 2) lo) = true
  · rw [if_pos hc]
    dsimp only
    have hle := (not_less_iff hL r1.1 ((lo + hi) / 2) lo (by omega) (by omega)).mp hc
    have hge := hleft2 ((lo + hi) / 2) (by omega) (by omega)
    have hk : ∀ k, key (I.Swap r1.1 ((lo + hi) / 2) (r2.1 - 1)) k =
        if k = (lo + hi) / 2 then key r1.1 (r2.1 - 1)
        else if k = r2.1 - 1 then key r1.1 ((lo + hi) / 2) else key r1.1 k :=
      fun k => hL.key_swap r1.1 _ _ k (by omega) (by omega)
    refine ⟨hreach1.trans (Reach.swap _ _ _ (by omega) (by omega) (by omega) (by omega)),
      ?_, ?_, ?_, ?_, by omega, by omega, hchi2⟩
    · rw [hk lo, if_neg (by omega), if_neg (by omega)]
      exact hpv2
    · intro k h1 h2
      rw [hk k]
      have e1 := hleft2 k h1 (by omega)
      have e2 := hleft2 (r2.1 - 1) (by omega) (by omega)
      split_ifs <;> omega
    · intro k h1 h2
      rw [hk k]
      by_cases hkb : k = r2.1 - 1
      · by_cases hkm : k = (lo + hi) / 2
        · rw [if_pos hkm]
          rw [← hkb, hkm]
          omega
        · rw [if_neg hkm, if_pos hkb]
          omega
      · rw [if_neg (by omega), if_neg hkb]
        exact hmid2 k (by omega) h2
    · intro k h1 h2
      rw [hk k, if_neg (by omega), if_neg (by omega)]
      exact hright2 k h1 h2
  · rw [if_neg hc]
    dsimp only
    exact ⟨hreach1, hpv2, hleft2, hmid2, hright2, hlb2, hbc2, hchi2⟩

theorem doPivot_spec (hL : Lawful I key) (s : σ) (lo hi : Nat) (hn : lo + 12 < hi)
    (hlen : hi ≤ I.Len s) :
    Reach I lo hi s (doPivot I s lo hi).1 ∧
      Partitioned key (doPivot I s lo hi).1 lo hi (doPivot I s lo hi).2.1
        (doPivot I s lo hi).2.2 := by
  unfold doPivot
  simp only []
  -- pivot selection
  have r0 := ninther_spec hL s lo hi hlen
  have l0 := r0.len hL hlen
  generalize ninther I s lo hi = s0 at r0 l0 ⊢
  obtain ⟨r1, hmed⟩ := medianOfThree_spec hL s0 lo hi lo ((lo + hi) / 2) (hi - 1) (by omega)
    (by omega) (by omega) (by omega)
  have l1 := r1.len hL (by omega)
  have hmed' := hmed (by omega) (by omega)
  generalize medianOfThree I s0 lo ((lo + hi) / 2) (hi - 1) = s1 at r1 l1 hmed hmed' ⊢
  -- first scan
  obtain ⟨a1, a2, a3, _⟩ := scanLess_spec hL s1 lo (hi - 1) (by omega) (by omega)
    (hi - 1 - (lo + 1)) (lo + 1)
  generalize scanLess I s1 lo (hi - 1) (hi - 1 - (lo + 1)) (lo + 1) = a at a1 a2 a3 ⊢
  have a2' := a2 (by omega)
  -- partition loop
  have hinvP : PartInv key s1 lo hi (key s1 lo) a (hi - 1) := by
    refine ⟨rfl, ?_, ?_, by omega, a2', by omega⟩
    · intro k h1 h2
      exact Nat.le_of_lt (a3 k (by omega) h2)
    · intro k h1 h2
      have : k = hi - 1 := by omega
      rw [this]
      exact hmed'
  obtain ⟨r2, hinv2, hbc⟩ := partitionLoop_spec hL lo hi (key s1 lo) (hi - 1 - a + 1) s1 a
    (hi - 1) (by omega) hinvP (Nat.le_refl _)
  have l2 := r2.len hL (by omega)
  generalize partitionLoop I lo (hi - 1 - a + 1) s1 a (hi - 1) = p at r2 hinv2 hbc l2 ⊢
  obtain ⟨s2, b2, c2⟩ := p
  dsimp only at r2 hinv2 hbc l2 ⊢
  subst hbc
  -- duplicate tests
  obtain ⟨d, hd, r3, hinv3⟩ : ∃ d : σ × Nat × Nat × Bool,
      (if (!decide (hi - b2 < 5) && decide (hi - b2 < (hi - lo) / 4)) = true
        then dupTests I s2 lo hi b2 b2 else (s2, b2, b2, decide (hi - b2 < 5))) = d ∧
      Reach I lo hi s2 d.1 ∧ DupInv key d.1 lo hi (key s1 lo) d.2.1 d.2.2.1 := by
    by_cases hc : (!decide (hi - b2 < 5) && decide (hi - b2 < (hi - lo) / 4)) = true
    · refine ⟨_, rfl, ?_⟩
      rw [if_pos hc]
      simp only [Bool.and_eq_true, Bool.not_eq_true', decide_eq_false_iff_not,
        decide_eq_true_eq] at hc
      exact dupTests_spec hL s2 lo hi (key s1 lo) b2 hn (by omega) hinv2 hc.2
    · refine ⟨_, rfl, ?_⟩
      rw [if_neg hc]
      dsimp only
      obtain ⟨h1, h2, h3, h4, h5, h6⟩ := hinv2
      exact ⟨Reach.refl _, h1, h2, fun k h1 h2 => by omega, h3, h4, h5, by omega⟩
  have l3 := r3.len hL (by omega)
  rw [hd]
  -- protection against duplicates
  obtain ⟨q, hq, r4, hinv4⟩ : ∃ q : σ × Nat × Nat,
      (if d.2.2.2 = true then protectLoop I lo (d.2.1 - a + 1) d.1 a d.2.1
        else (d.1, a, d.2.1)) = q ∧
      Reach I lo hi d.1 q.1 ∧ DupInv key q.1 lo hi (key s1 lo) q.2.2 d.2.2.1 := by
    by_cases hc : d.2.2.2 = true
    · refine ⟨_, rfl, ?_⟩
      rw [if_pos hc]
      exact protectLoop_spec hL lo hi (key s1 lo) (d.2.1 - a + 1) d.1 a d.2.1 d.2.2.1
        (by omega) (by omega) hinv3
    · refine ⟨_, rfl, ?_⟩
      rw [if_neg hc]
      exact ⟨Reach.refl _, hinv3⟩
  have l4 := r4.len hL (by omega)
  rw [hq]
  -- swap the pivot into the middle
  obtain ⟨hpv, hleft, hmid, hright, hlb, hbcq, hchi⟩ := hinv4
  have hk : ∀ k, key (I.Swap q.1 lo (q.2.2 - 1)) k =
      if k = lo then key q.1 (q.2.2 - 1) else if k = q.2.2 - 1 then key q.1 lo else key q.1 k :=
    fun k => hL.key_swap q.1 _ _ k (by omega) (by omega)
  refine ⟨(((r0.trans r1).trans r2).trans r3).trans (r4.trans
    (Reach.swap _ _ _ (by omega) (by omega) (by omega) (by omega))), by omega, by omega, hchi,
    key s1 lo, ?_, ?_, ?_⟩
  · intro k h1 h2
    rw [hk k]
    by_cases hkl : k = lo
    · rw [if_pos hkl]
      by_cases hq1 : q.2.2 - 1 = lo
      · rw [hq1]; omega
      · exact hleft _ (by omega) (by omega)
    · rw [if_neg hkl, if_neg (by omega)]
      exact hleft k (by omega) (by omega)
  · intro k h1 h2
    rw [hk k]
    by_cases hkb : k = q.2.2 - 1
    · by_cases hkl : k = lo
      · rw [if_pos hkl]
        rw [← hkb, hkl]
        exact hpv
      · rw [if_neg hkl, if_pos hkb]
        exact hpv
    · rw [if_neg (by omega), if_neg hkb]
      exact hmid k (by omega) h2
  · intro k h1 h2
    rw [hk k, if_neg (by omega), if_neg (by omega)]
    exact hright k h1 h2

theorem quickSortTail_spec (hL : Lawful I key) (s : σ) (a b : Nat) (hab : a ≤ b)
    (hb : b ≤ I.Len s) :
    Reach I a b s (quickSortTail I s a b) ∧ SortedOn key (quickSortTail I s a b) a b := by
  unfold quickSortTail
  by_cases h1 : b - a > 1
  · rw [if_pos h1]
    simp only []
    have r1 : Reach I a b s ((List.range' (a + 6) (b - (a + 6))).foldl
        (fun d i => if I.Less d i (i - 6) then I.Swap d i (i - 6) else d) s) := by
      by_cases h6 : a + 6 ≤ b
      · exact shellPass_spec a b (b - (a + 6)) (a + 6) s (Nat.le_refl _) (by omega)
      · have e : b - (a + 6) = 0 := by omega
        rw [e]
        exact Reach.refl _
    have l1 := r1.len hL hb
    generalize (List.range' (a + 6) (b - (a + 6))).foldl
      (fun d i => if I.Less d i (i - 6) then I.Swap d i (i - 6) else d) s = s1 at r1 l1 ⊢
    obtain ⟨r2, h2⟩ := insertionSort_spec hL s1 a b hab (by omega)
    exact ⟨r1.trans r2, h2⟩
  · rw [if_neg h1]
    refine ⟨Reach.refl _, ?_⟩
    intro p q hp hpq hq
    have : p = q := by omega
    subst this
    exact Nat.le_refl _

theorem quickSort_spec (hL : Lawful I key) :
    ∀ (maxDepth : Nat) (s : σ) (a b : Nat), a ≤ b → b ≤ I.Len s →
      Reach I a b s (quickSort I maxDepth s a b) ∧
        SortedOn key (quickSort I maxDepth s a b) a b := by
  intro maxDepth
  induction maxDepth with
  | zero =>
    intro s a b hab hb
    rw [quickSort]
    by_cases h12 : b - a > 12
    · rw [if_pos h12]
      exact heapSort_spec hL s a b hab hb
    · rw [if_neg h12]
      exact quickSortTail_spec hL s a b hab hb
  | succ maxDepth ih =>
    intro s a b hab hb
    rw [quickSort]
    by_cases h12 : b - a > 12
    · rw [if_pos h12]
      simp only []
      obtain ⟨r0, hmlo, hmid, hmhi, pv, hleft, hmidv, hright⟩ :=
        doPivot_spec hL s a b (by omega) hb
      have l0 := r0.len hL hb
      generalize doPivot I s a b = p at r0 hmlo hmid hmhi hleft hmidv hright l0 ⊢
      obtain ⟨s1, mlo, mhi⟩ := p
      dsimp only at r0 hmlo hmid hmhi hleft hmidv hright l0 ⊢
      by_cases hside : mlo - a < b - mhi
      · rw [if_pos hside]
        obtain ⟨r1, h1⟩ := ih s1 a mlo hmlo (by omega)
        have l1 := r1.len hL (by omega)
        obtain ⟨r2, h2⟩ := ih (quickSort I maxDepth s1 a mlo) mhi b hmhi (by omega)
        have o1 := fun k hk => r1.key_outside hL (by omega) k hk
        have o2 := fun k hk => r2.key_outside hL (by omega) k hk
        have f1 := r1.forall_key hL (by omega) (fun v => v ≤ pv) hleft
        have f2 := r2.forall_key hL (by omega) (fun v => pv ≤ v)
          (fun k h1 h2 => by rw [o1 k (Or.inr (by omega))]; exact hright k h1 h2)
        refine ⟨(r0.trans (r1.mono (Nat.le_refl _) (by omega))).trans
          (r2.mono (by omega) (Nat.le_refl _)), ?_⟩
        intro i j hi hij hj
        -- the three regions of the final data
        have key_left : ∀ k, a ≤ k → k < mlo →
            key (quickSort I maxDepth (quickSort I maxDepth s1 a mlo) mhi b) k ≤ pv := by
          intro k h1 h2
          rw [o2 k (Or.inl (by omega))]
          exact f1 k h1 h2
        have key_mid : ∀ k, mlo ≤ k → k < mhi →
            key (quickSort I maxDepth (quickSort I maxDepth s1 a mlo) mhi b) k = pv := by
          intro k h1 h2
          rw [o2 k (Or.inl (by omega)), o1 k (Or.inr (by omega))]
          exact hmidv k h1 h2
        have key_right : ∀ k, mhi ≤ k → k < b →
            pv ≤ key (quickSort I maxDepth (quickSort I maxDepth s1 a mlo) mhi b) k :=
          fun k h1 h2 => f2 k h1 h2
        by_cases hj1 : j < mlo
        · rw [o2 i (Or.inl (by omega)), o2 j (Or.inl (by omega))]
          exact h1 i j hi hij hj1
        · by_cases hi1 : mhi ≤ i
          · exact h2 i j hi1 hij hj
          · have ei : key (quickSort I maxDepth (quickSort I maxDepth s1 a mlo) mhi b) i ≤ pv := by
              by_cases hi2 : i < mlo
              · exact key_left i hi hi2
              · exact Nat.le_of_eq (key_mid i (by omega) (by omega))
            have ej : pv ≤ key (quickSort I maxDepth (quickSort I maxDepth s1 a mlo) mhi b) j := by
              by_cases hj2 : mhi ≤ j
              · exact key_right j hj2 hj
              · exact Nat.le_of_eq (key_mid j (by omega) (by omega)).symm
            omega
      · rw [if_neg hside]
        obtain ⟨r1, h1⟩ := ih s1 mhi b hmhi (by omega)
        have l1 := r1.len hL (by omega)
        obtain ⟨r2, h2⟩ := ih (quickSort I maxDepth s1 mhi b) a mlo hmlo (by omega)
        have o1 := fun k hk => r1.key_outside hL (by omega) k hk
        have o2 := fun k hk => r2.key_outside hL (by omega) k hk
        have f1 := r1.forall_key hL (by omega) (fun v => pv ≤ v) hright
        have f2 := r2.forall_key hL (by omega) (fun v => v ≤ pv)
          (fun k h1 h2 => by rw [o1 k (Or.inl (by omega))]; exact hleft k h1 h2)
        refine ⟨(r0.trans (r1.mono (by omega) (Nat.le_refl _))).trans
          (r2.mono (Nat.le_refl _) (by omega)), ?_⟩
        intro i j hi hij hj
        have key_left : ∀ k, a ≤ k → k < mlo →
            key (quickSort I maxDepth (quickSort I maxDepth s1 mhi b) a mlo) k ≤ pv :=
          fun k h1 h2 => f2 k h1 h2
        have key_mid : ∀ k, mlo ≤ k → k < mhi →
            key (quickSort I maxDepth (quickSort I maxDepth s1 mhi b) a mlo) k = pv := by
          intro k h1 h2
          rw [o2 k (Or.inr (by omega)), o1 k (Or.inl (by omega))]
          exact hmidv k h1 h2
        have key_right : ∀ k, mhi ≤ k → k < b →
            pv ≤ key (quickSort I maxDepth (quickSort I maxDepth s1 mhi b) a mlo) k := by
          intro k h1 h2
          rw [o2 k (Or.inr (by omega))]
          exact f1 k h1 h2
        by_cases hj1 : j < mlo
        · exact h2 i j hi hij hj1
        · by_cases hi1 : mhi ≤ i
          · rw [o2 i (Or.inr (by omega)), o2 j (Or.inr (by omega))]
            exact h1 i j hi1 hij hj
          · have ei : key (quickSort I maxDepth (quickSort I maxDepth s1 mhi b) a mlo) i ≤ pv := by
              by_cases hi2 : i < mlo
              · exact key_left i hi hi2
              · exact Nat.le_of_eq (key_mid i (by omega) (by omega))
            have ej : pv ≤ key (quickSort I maxDepth (quickSort I maxDepth s1 mhi b) a mlo) j := by
              by_cases hj2 : mhi ≤ j
              · exact key_right j hj2 hj
              · exact Nat.le_of_eq (key_mid j (by omega) (by omega)).symm
            omega
    · rw [if_neg h12]
      exact quickSortTail_spec hL s a b hab hb

/-- `sort.Sort` on a lawful interface: the result is reached from the input by
swaps inside `[0, Len)`, and its keys are in ascending order. -/
theorem sort_Sort_spec (hL : Lawful I key) (s : σ) :
    Reach I 0 (I.Len s) s (sort_Sort I s) ∧ SortedOn key (sort_Sort I s) 0 (I.Len s) := by
  unfold sort_Sort
  exact quickSort_spec hL (maxDepth (I.Len s)) s 0 (I.Len s) (Nat.zero_le _) (Nat.le_refl _)

end DoPivotProofs

end Micro

namespace Micro

/-! ## The iteration bounds of the loops are never the reason a loop stops -/

section FuelProofs

variable {σ : Type} {I : Interface σ}

theorem scanLess_le (s : σ) (pivot c : Nat) :
    ∀ (fuel a : Nat), a ≤ scanLess I s pivot c fuel a := by
  intro fuel
  induction fuel with
  | zero => intro a; exact Nat.le_refl _
  | succ fuel ih =>
    intro a
    unfold scanLess
    split_ifs
    · exact Nat.le_trans (Nat.le_succ a) (ih (a + 1))
    · exact Nat.le_refl _

theorem scanEqualDown_le (s : σ) (pivot a : Nat) :
    ∀ (fuel b : Nat), scanEqualDown I s pivot a fuel b ≤ b := by
  intro fuel
  induction fuel with
  | zero => intro b; exact Nat.le_refl _
  | succ fuel ih =>
    intro b
    unfold scanEqualDown
    split_ifs
    · exact Nat.le_trans (ih (b - 1)) (Nat.sub_le b 1)
    · exact Nat.le_refl _

/-- With the bound `b - a + 1` used by `doPivot`, the duplicate-protection loop
ends through its `break` (`a >= b`). -/
theorem protectLoop_exit (pivot : Nat) :
    ∀ (fuel : Nat) (s : σ) (a b : Nat), b - a + 1 ≤ fuel →
      (protectLoop I pivot fuel s a b).2.1 ≥ (protectLoop I pivot fuel s a b).2.2 := by
  intro fuel
  induction fuel with
  | zero =>
    intro s a b h
    omega
  | succ fuel ih =>
    intro s a b h
    unfold protectLoop
    simp only []
    have h1 := scanEqualDown_le (I := I) s pivot a (b - a) b
    generalize scanEqualDown I s pivot a (b - a) b = b' at h1 ⊢
    have h2 := scanLess_le (I := I) s pivot b' (b' - a) a
    generalize scanLess I s pivot b' (b' - a) a = a' at h2 ⊢
    by_cases hex : a' ≥ b'
    · rw [if_pos hex]
      exact hex
    · rw [if_neg hex]
      exact ih _ _ _ (by omega)

/-- The loop of `maxDepth` started at `i` ends through its condition (`i > 0`
fails) within `i` iterations: a larger bound gives the same result. -/
theorem maxDepthLoop_fuel :
    ∀ (fuel i depth : Nat), i ≤ fuel →
      maxDepthLoop (fuel + 1) i depth = maxDepthLoop fuel i depth := by
  intro fuel
  induction fuel with
  | zero =>
    intro i depth h
    have : i = 0 := by omega
    subst this
    simp [maxDepthLoop]
  | succ fuel ih =>
    intro i depth h
    have e1 : maxDepthLoop (fuel + 1 + 1) i depth =
        if i > 0 then maxDepthLoop (fuel + 1) (i / 2) (depth + 1) else depth := rfl
    have e2 : maxDepthLoop (fuel + 1) i depth =
        if i > 0 then maxDepthLoop fuel (i / 2) (depth + 1) else depth := rfl
    rw [e1, e2]
    by_cases hi : i > 0
    · rw [if_pos hi, if_pos hi]
      exact ih (i / 2) (depth + 1) (by omega)
    · rw [if_neg hi, if_neg hi]

end FuelProofs

end Micro

namespace Micro

/-! ## `commands` is a lawful `sort.Interface` -/

theorem cons_set_perm {α : Type} (x : α) :
    ∀ (xs : List α) (j : Nat) (y : α), xs[j]? = some y → (y :: xs.set j x).Perm (x :: xs) := by
  intro xs
  induction xs with
  | nil =>
    intro j y h
    simp at h
  | cons z zs ih =>
    intro j y h
    cases j with
    | zero =>
      simp only [List.getElem?_cons_zero, Option.some.injEq] at h
      subst h
      simp only [List.set_cons_zero]
      exact List.Perm.swap _ _ _
    | succ k =>
      simp only [List.getElem?_cons_succ] at h
      simp only [List.set_cons_succ]
      exact ((List.Perm.swap z y _).trans ((ih k y h).cons z)).trans (List.Perm.swap x z _)

theorem set_set_perm_of_getElem? {α : Type} :
    ∀ (l : List α) (i j : Nat) (a b : α), l[i]? = some a → l[j]? = some b →
      ((l.set i b).set j a).Perm l := by
  intro l
  induction l with
  | nil =>
    intro i j a b h
    simp at h
  | cons x xs ih =>
    intro i j a b hi hj
    cases i with
    | zero =>
      simp only [List.getElem?_cons_zero, Option.some.injEq] at hi
      subst hi
      cases j with
      | zero =>
        simp only [List.getElem?_cons_zero, Option.some.injEq] at hj
        subst hj
        simp
      | succ j =>
        simp only [List.getElem?_cons_succ] at hj
        simp only [List.set_cons_zero, List.set_cons_succ]
        exact cons_set_perm x xs j b hj
    | succ i =>
      simp only [List.getElem?_cons_succ] at hi
      cases j with
      | zero =>
        simp only [List.getElem?_cons_zero, Option.some.injEq] at hj
        subst hj
        simp only [List.set_cons_zero, List.set_cons_succ]
        exact cons_set_perm x xs i a hi
      | succ j =>
        simp only [List.getElem?_cons_succ] at hj
        simp only [List.set_cons_succ]
        exact (ih i j a b hi hj).cons x

theorem commands_Swap_perm (s : commands) (i j : Nat) : (commands.Swap s i j).Perm s := by
  unfold commands.Swap
  cases hi : s[i]? with
  | none => exact List.Perm.refl _
  | some ci =>
    cases hj : s[j]? with
    | none => exact List.Perm.refl _
    | some cj => exact set_set_perm_of_getElem? s i j ci cj hi hj

theorem commands_Swap_getElem? (s : commands) (i j k : Nat) (hi : i < s.length)
    (hj : j < s.length) :
    (commands.Swap s i j)[k]? = if k = i then s[j]? else if k = j then s[i]? else s[k]? := by
  unfold commands.Swap
  rw [List.getElem?_eq_getElem hi, List.getElem?_eq_getElem hj]
  simp only [List.getElem?_set, List.length_set]
  by_cases hkj : j = k
  · subst hkj
    by_cases hki : j = i
    · subst hki
      simp [hi]
    · simp [hj, hki]
  · by_cases hki : i = k
    · subst hki
      simp [hkj, hi, Ne.symm hkj]
    · simp [hkj, hki, Ne.symm hkj, Ne.symm hki]

theorem commands_lawful : Lawful commandsInterface commands.key := by
  refine ⟨?_, ?_, ?_⟩
  · intro s i j hi hj
    have hi' : i < s.length := hi
    have hj' : j < s.length := hj
    show (commands.Swap s i j).length = s.length
    unfold commands.Swap
    rw [List.getElem?_eq_getElem hi', List.getElem?_eq_getElem hj']
    simp
  · intro s i j k hi hj
    have hi' : i < s.length := hi
    have hj' : j < s.length := hj
    show commands.key (commands.Swap s i j) k = _
    unfold commands.key
    rw [commands_Swap_getElem? s i j k hi' hj']
    split_ifs <;> rfl
  · intro s i j hi hj
    have hi' : i < s.length := hi
    have hj' : j < s.length := hj
    show commands.Less s i j = true ↔ _
    unfold commands.Less commands.key
    rw [List.getElem?_eq_getElem hi', List.getElem?_eq_getElem hj']
    simp [Command.rank]

theorem commands_reach_perm {a b : Nat} {s t : commands} (h : Reach commandsInterface a b s t) :
    t.Perm s := by
  induction h with
  | refl => exact List.Perm.refl _
  | step i j _ _ _ _ _ ih => exact (commands_Swap_perm _ i j).trans ih

/-- `sort.Sort(commands(cs))` permutes `cs`. -/
theorem sort_commands_perm (cs : commands) : (sort_Sort commandsInterface cs).Perm cs :=
  commands_reach_perm (sort_Sort_spec commands_lawful cs).1

/-- `sort.Sort(commands(cs))` puts the ranks in ascending order. -/
theorem sort_commands_pairwise (cs : commands) :
    (sort_Sort commandsInterface cs).Pairwise (fun x y => x.rank ≤ y.rank) := by
  obtain ⟨hr, hs⟩ := sort_Sort_spec commands_lawful cs
  have hlen : (sort_Sort commandsInterface cs).length = cs.length :=
    (sort_commands_perm cs).length_eq
  rw [List.pairwise_iff_getElem]
  intro i j hi hj hij
  have h := hs i j (Nat.zero_le _) (Nat.le_of_lt hij) (by
    show j < cs.length
    omega)
  unfold commands.key at h
  rw [List.getElem?_eq_getElem hi, List.getElem?_eq_getElem hj] at h
  exact h

end Micro

namespace Micro

/-! ## Ranks and the command table -/

theorem rank_of_listed (c : Command) (h : c.Name ∈ commandOrder) :
    c.rank = commandOrder.indexOf c.Name ∧ c.rank < MaxInt32 := by
  unfold Command.rank
  generalize c.Name = n at h
  simp only [commandOrder, List.mem_cons, List.mem_singleton, List.not_mem_nil, or_false] at h
  rcases h with h | h | h | h | h | h | h | h | h | h | h | h | h | h | h <;>
    (subst h; exact ⟨by decide, by decide⟩)

theorem rank_of_unlisted (c : Command) (h : c.Name ∉ commandOrder) : c.rank = MaxInt32 := by
  unfold Command.rank
  generalize c.Name = n at h
  simp only [commandOrder, List.mem_cons, List.mem_singleton, List.not_mem_nil, or_false,
    not_or] at h
  obtain ⟨h1, h2, h3, h4, h5, h6, h7, h8, h9, h10, h11, h12, h13, h14, h15⟩ := h
  simp [rankIn, indexMap, commandOrder, List.enum, List.enumFrom, h1, h2, h3, h4, h5, h6, h7,
    h8, h9, h10, h11, h12, h13, h14, h15]

theorem filter_append_of_pairwise {α : Type} (p : α → Bool) :
    ∀ (l : List α), l.Pairwise (fun x y => p y = true → p x = true) →
      l = l.filter p ++ l.filter (fun x => !p x) := by
  intro l
  induction l with
  | nil => intro _; rfl
  | cons x xs ih =>
    intro h
    rw [List.pairwise_cons] at h
    obtain ⟨hx, hxs⟩ := h
    by_cases hp : p x = true
    · simp only [List.filter_cons, hp, Bool.not_true, if_true, Bool.false_eq_true, if_false,
        List.cons_append]
      exact congrArg (List.cons x) (ih hxs)
    · have hnone : ∀ y ∈ xs, ¬ p y = true := fun y hy hpy => hp (hx y hy hpy)
      have e1 : xs.filter p = [] := by
        rw [List.filter_eq_nil_iff]
        exact hnone
      have e2 : xs.filter (fun x => !p x) = xs := by
        rw [List.filter_eq_self]
        intro y hy
        simp [hnone y hy]
      simp [List.filter_cons, hp, e1, e2]

theorem rankOrdered_of_pairwise (l : List Command)
    (h : l.Pairwise (fun x y => x.rank ≤ y.rank)) : RankOrdered l := by
  refine ⟨?_, ?_⟩
  · apply filter_append_of_pairwise
    refine h.imp ?_
    intro x y hxy hy
    by_cases hx : x.Name ∈ commandOrder
    · simp [Command.listed, hx]
    · have e1 := rank_of_unlisted x hx
      have hy' : y.Name ∈ commandOrder := by simpa [Command.listed] using hy
      have e2 := (rank_of_listed y hy').2
      omega
  · have hf := h.sublist (List.filter_sublist (p := fun c => c.listed) l)
    refine hf.imp_of_mem ?_
    intro x y hx hy hxy
    have hx' : x.Name ∈ commandOrder := by
      simpa [Command.listed] using (List.mem_filter.mp hx).2
    have hy' : y.Name ∈ commandOrder := by
      simpa [Command.listed] using (List.mem_filter.mp hy).2
    rw [← (rank_of_listed x hx').1, ← (rank_of_listed y hy').1]
    exact hxy

theorem foldl_append_Commands {ω : Type} (cmds : List Command) :
    ∀ (app : App ω),
      (cmds.foldl (fun app command => { app with Commands := app.Commands ++ [command] })
        app).Commands = app.Commands ++ cmds := by
  induction cmds with
  | nil => intro app; simp
  | cons c cs ih =>
    intro app
    simp only [List.foldl_cons]
    rw [ih]
    simp

theorem addPlugins_Commands {ω : Type} (ps : List (Plugin ω)) :
    ∀ (app : App ω), (addPlugins ps app).Commands = app.Commands ++ pluginCommands ps := by
  induction ps with
  | nil => intro app; simp [addPlugins, pluginCommands]
  | cons p ps ih =>
    intro app
    simp only [addPlugins, pluginCommands]
    rw [ih]
    by_cases hc : p.Commands.length > 0
    · by_cases hf : p.Flags.length > 0 <;> simp [hc, hf]
    · have e : p.Commands = [] := List.length_eq_zero.mp (by omega)
      by_cases hf : p.Flags.length > 0 <;> simp [hf, e]

theorem Setup_Commands {ω : Type} (DefaultURL : String) (env : Collaborators ω) (x : ExecEnv)
    (Commands : List Command) (plugins : List (Plugin ω)) (app : App ω) :
    (Setup DefaultURL env x Commands plugins app).Commands =
      sort_Sort commandsInterface (app.Commands ++ Commands ++ [initCommand]) ++
        pluginCommands plugins := by
  simp only [Setup, setup, addPlugins_Commands, foldl_append_Commands]

/-- The claim of C1 fails on seven commands: six unlisted ones followed by
`server`.  The gap-6 pass of `quickSort` exchanges `a` (index 0) with `server`
(index 6), so the unlisted commands come out as `b c d e f a`, not in their
original order `a b c d e f`. -/
theorem C1_counterexample :
    (sort_Sort commandsInterface
        (namedCommands ["a", "b", "c", "d", "e", "f", "server"])).map (fun c => c.Name)
      = ["server", "b", "c", "d", "e", "f", "a"] ∧
    (sort_Sort commandsInterface
        (namedCommands ["a", "b", "c", "d", "e", "f", "server"])).filter (fun c => !c.listed)
      ≠ (namedCommands ["a", "b", "c", "d", "e", "f", "server"]).filter (fun c => !c.listed) := by
  decide

/-- C1 (amended): for every list of commands `cs`, `sort.Sort(commands(cs))`
yields a permutation of `cs` in which all commands whose names are in
`commandOrder` come first, in `commandOrder`'s relative order, followed by all
commands whose names are absent from it (whose relative order is not fixed). -/
theorem C1_sort_orders_by_rank (cs : List Command) :
    (sort_Sort commandsInterface cs).Perm cs ∧ RankOrdered (sort_Sort commandsInterface cs) :=
  ⟨sort_commands_perm cs, rankOrdered_of_pairwise _ (sort_commands_pairwise cs)⟩

/-- The claim of C2 fails when a built-in command is itself called `init`:
`Setup` completes and the table holds two commands named `init`. -/
theorem C2_counterexample :
    ((Setup "" (sampleEnv "jwt" []) sampleExec (namedCommands ["init"]) [] emptyApp).Commands).map
        (fun c => c.Name) = ["init", "init"] ∧
    ¬ (((Setup "" (sampleEnv "jwt" []) sampleExec (namedCommands ["init"]) []
        emptyApp).Commands).map (fun c => c.Name)).Nodup := by
  decide

/-- C2 (amended): `Setup` has no failure path and makes no duplicate check: the
command table after `Setup` is a permutation of all registered commands (those
already in the app, the built-in `Commands`, the `init` command and every
plugin command), so commands that share a name are all kept. -/
theorem C2_every_command_is_kept {ω : Type} (DefaultURL : String) (env : Collaborators ω)
    (x : ExecEnv) (Commands : List Command) (plugins : List (Plugin ω)) (app : App ω) :
    ((Setup DefaultURL env x Commands plugins app).Commands).Perm
      (app.Commands ++ Commands ++ [initCommand] ++ pluginCommands plugins) := by
  rw [Setup_Commands]
  exact (sort_commands_perm _).append_right _

/-- The claim of C9 fails when a plugin contributes a listed command: the
plugin command `server` is appended after the sort and ends up behind the
unlisted command `init`. -/
theorem C9_counterexample :
    ((Setup "" (sampleEnv "jwt" []) sampleExec [] [commandPlugin ["server"]] emptyApp).Commands).map
        (fun c => c.Name) = ["init", "server"] ∧
    ¬ RankOrdered
      (Setup "" (sampleEnv "jwt" []) sampleExec [] [commandPlugin ["server"]] emptyApp).Commands := by
  refine ⟨by decide, ?_⟩
  intro h
  have h1 := h.1
  revert h1
  decide

/-- C9 (amended): after `Setup` the command table is the built-in part (the
commands already in the app, `Commands` and `init`) in ascending priority rank,
followed by the plugin-contributed commands in plugin registration order,
which are appended after the sort and are not sorted. -/
theorem C9_builtin_sorted_then_plugins {ω : Type} (DefaultURL : String) (env : Collaborators ω)
    (x : ExecEnv) (Commands : List Command) (plugins : List (Plugin ω)) (app : App ω) :
    ∃ builtin, (Setup DefaultURL env x Commands plugins app).Commands =
        builtin ++ pluginCommands plugins ∧
      builtin.Perm (app.Commands ++ Commands ++ [initCommand]) ∧ RankOrdered builtin :=
  ⟨sort_Sort commandsInterface (app.Commands ++ Commands ++ [initCommand]),
    Setup_Commands DefaultURL env x Commands plugins app, sort_commands_perm _,
    rankOrdered_of_pairwise _ (sort_commands_pairwise _)⟩

end Micro

namespace Micro

/-! ## The hook, the fallback action and the flag table -/

theorem initPlugins_ok {ω : Type} (ctx : Context) (ps : List (Plugin ω)) :
    ∀ (k : Nat) (s : HookState ω) (w1 : ω),
      succeedAll (ps.map (fun p => p.Init ctx)) s.world = some w1 →
      initPlugins ctx ps k s =
        ({ s with world := w1,
                  trace := s.trace ++ (List.range' k ps.length).map Event.PluginInit }, none) := by
  induction ps with
  | nil =>
    intro k s w1 h
    simp [succeedAll] at h
    subst h
    simp [initPlugins]
  | cons p ps ih =>
    intro k s w1 h
    simp only [List.map_cons, succeedAll] at h
    rcases hp : p.Init ctx s.world with ⟨w, err⟩
    rw [hp] at h
    cases err with
    | some e => simp at h
    | none =>
      simp only at h
      simp only [initPlugins, hp]
      rw [ih (k + 1) _ w1 h]
      simp [List.range'_succ]

theorem initPlugins_fail {ω : Type} (ctx : Context) (pre : List (Plugin ω)) (p : Plugin ω)
    (post : List (Plugin ω)) (k : Nat) (s : HookState ω) (w1 w2 : ω) (e : Error)
    (hpre : succeedAll (pre.map (fun q => q.Init ctx)) s.world = some w1)
    (hp : p.Init ctx w1 = (w2, some e)) :
    initPlugins ctx (pre ++ p :: post) k s =
      ({ s with world := w2,
                trace := s.trace ++ (List.range' k (pre.length + 1)).map Event.PluginInit },
        some e) := by
  induction pre generalizing k s with
  | nil =>
    simp [succeedAll] at hpre
    subst hpre
    simp [initPlugins, hp]
  | cons q pre ih =>
    simp only [List.map_cons, succeedAll] at hpre
    rcases hq : q.Init ctx s.world with ⟨w, err⟩
    rw [hq] at hpre
    cases err with
    | some e => simp at hpre
    | none =>
      simp only at hpre
      have h := ih (k + 1) { s with world := w, trace := s.trace ++ [Event.PluginInit k] } hpre
      simp only [List.cons_append, initPlugins, hq]
      refine Eq.trans h ?_
      simp [List.range'_succ]

theorem grantRules_ok {ω : Type} (env : Collaborators ω) (rules : List Rule) :
    ∀ (s : HookState ω) (w1 : ω),
      succeedAll (rules.map (fun r => env.AuthGrant r)) s.world = some w1 →
      grantRules env rules s =
        ({ s with world := w1, trace := s.trace ++ rules.map Event.Grant }, none) := by
  induction rules with
  | nil =>
    intro s w1 h
    simp [succeedAll] at h
    subst h
    simp [grantRules]
  | cons r rules ih =>
    intro s w1 h
    simp only [List.map_cons, succeedAll] at h
    rcases hr : env.AuthGrant r s.world with ⟨w, err⟩
    rw [hr] at h
    cases err with
    | some e => simp at h
    | none =>
      simp only at h
      simp only [grantRules, hr]
      rw [ih _ w1 h]
      simp

theorem grantRules_fail {ω : Type} (env : Collaborators ω) (pre : List Rule) (r : Rule)
    (post : List Rule) (s : HookState ω) (w1 w2 : ω) (e : Error)
    (hpre : succeedAll (pre.map (fun q => env.AuthGrant q)) s.world = some w1)
    (hr : env.AuthGrant r w1 = (w2, some e)) :
    grantRules env (pre ++ r :: post) s =
      ({ s with world := w2, trace := s.trace ++ pre.map Event.Grant ++ [Event.Grant r] },
        some e) := by
  induction pre generalizing s with
  | nil =>
    simp [succeedAll] at hpre
    subst hpre
    simp [grantRules, hr]
  | cons q pre ih =>
    simp only [List.map_cons, succeedAll] at hpre
    rcases hq : env.AuthGrant q s.world with ⟨w, err⟩
    rw [hq] at hpre
    cases err with
    | some e => simp at hpre
    | none =>
      simp only at hpre
      have h := ih { s with world := w, trace := s.trace ++ [Event.Grant q] } hpre
      simp only [List.cons_append, grantRules, hq]
      refine Eq.trans h ?_
      simp

theorem beforeHook_reaches_prior {ω : Type} (env : Collaborators ω) (ps : List (Plugin ω))
    (before : Hook ω) (ctx : Context) (s : HookState ω) (w1 : ω)
    (hinit : succeedAll (ps.map (fun p => p.Init ctx)) s.world = some w1) :
    beforeHook env ps before ctx s =
      match before ctx (stateBeforePrior env ps.length ctx s w1) with
      | (s, Outcome.exited code) => (s, Outcome.exited code)
      | (s, Outcome.returned (some err)) =>
        ({ s with trace := s.trace ++ [Event.Println err] }, Outcome.exited 1)
      | (s, Outcome.returned none) => authStep env (storeStep env ctx s) := by
  have h := initPlugins_ok ctx ps 0 { s with cfg := bindFlags ctx s.cfg } w1 hinit
  simp only [beforeHook, h, stateBeforePrior, List.range_eq_range']

/-- C4: the hook calls `Init` on the plugins in registration order; when plugin
`k` is the first whose `Init` fails with `e`, the hook returns exactly `e`, the
log of calls is exactly `Init` on plugins `0..k`, and the final state is the one
that failing `Init` left: whatever the prior hook, the store and the auth backend
are, none of them is called. -/
theorem C4_first_failing_plugin_aborts {ω : Type} (env : Collaborators ω) (before : Hook ω)
    (ctx : Context) (pre : List (Plugin ω)) (p : Plugin ω) (post : List (Plugin ω))
    (s : HookState ω) (w1 w2 : ω) (e : Error)
    (hpre : succeedAll (pre.map (fun q => q.Init ctx)) s.world = some w1)
    (hp : p.Init ctx w1 = (w2, some e)) :
    beforeHook env (pre ++ p :: post) before ctx s =
      ({ cfg := bindFlags ctx s.cfg, world := w2,
         trace := s.trace ++ (List.range (pre.length + 1)).map Event.PluginInit },
        Outcome.returned (some e)) := by
  have h := initPlugins_fail ctx pre p post 0 { s with cfg := bindFlags ctx s.cfg } w1 w2 e hpre hp
  simp only [beforeHook, h, List.range_eq_range']

theorem C4_first_failing_plugin_aborts_witness :
    beforeHook (sampleEnv "jwt" ["r1"]) [okPlugin, failingPlugin "boom", okPlugin] okPrior
        { flags := [], Args := [] } sampleState =
      ({ cfg := bindFlags { flags := [], Args := [] } sampleState.cfg, world := 1,
         trace := sampleState.trace ++ (List.range ([okPlugin].length + 1)).map Event.PluginInit },
        Outcome.returned (some "boom")) :=
  C4_first_failing_plugin_aborts (sampleEnv "jwt" ["r1"]) okPrior { flags := [], Args := [] }
    [okPlugin] (failingPlugin "boom") [okPlugin] sampleState 1 1 "boom" rfl rfl

/-- C5: when every plugin `Init` succeeds and the previously installed hook
returns an error `e`, the hook prints `e` and the process exits with status 1:
nothing is returned, and the state is the one the prior hook left plus the
print, so `Store.Init` and `Grant` are not called. -/
theorem C5_prior_hook_failure_exits {ω : Type} (env : Collaborators ω) (ps : List (Plugin ω))
    (before : Hook ω) (ctx : Context) (s : HookState ω) (w1 : ω) (s2 : HookState ω) (e : Error)
    (hinit : succeedAll (ps.map (fun p => p.Init ctx)) s.world = some w1)
    (hbefore : before ctx (stateBeforePrior env ps.length ctx s w1) =
      (s2, Outcome.returned (some e))) :
    beforeHook env ps before ctx s =
        ({ s2 with trace := s2.trace ++ [Event.Println e] }, Outcome.exited 1) ∧
      ∀ err, (beforeHook env ps before ctx s).2 ≠ Outcome.returned err := by
  have h := beforeHook_reaches_prior env ps before ctx s w1 hinit
  rw [hbefore] at h
  simp only at h
  rw [h]
  exact ⟨rfl, fun err => by simp⟩

theorem C5_prior_hook_failure_exits_witness :
    beforeHook (sampleEnv "jwt" ["r1"]) [okPlugin, okPlugin] (failingPrior "prior failed")
        { flags := [], Args := [] } sampleState =
      ({ stateBeforePrior (sampleEnv "jwt" ["r1"]) 2 { flags := [], Args := [] } sampleState 2 with
          trace := (stateBeforePrior (sampleEnv "jwt" ["r1"]) 2 { flags := [], Args := [] }
            sampleState 2).trace ++ [Event.Println "prior failed"] },
        Outcome.exited 1) :=
  (C5_prior_hook_failure_exits (sampleEnv "jwt" ["r1"]) [okPlugin, okPlugin]
    (failingPrior "prior failed") { flags := [], Args := [] } sampleState 2 _ "prior failed"
    rfl rfl).1

/-- The claim of C3 fails when the first positional argument is present but is
the empty string: with both store flags unset and arguments `[""]` the hook
calls `Store.Init` with `Table("micro")` (the application name), not with
`Table("")` (the first positional argument). -/
theorem C3_counterexample :
    (beforeHook (sampleEnv "service" []) [] okPrior { flags := [], Args := [""] } sampleState).1.trace
        = [Event.SetupCommand,
           Event.StoreInit [StoreOption.Database "micro", StoreOption.Table "micro"]] ∧
      ({ flags := [], Args := [""] } : Context).Args.head? = some "" := by
  decide

/-- C3 (amended): when every plugin `Init` and the prior hook succeed, the hook
calls `Store.Init` exactly when `store_database` or `store_table` is empty, with
`Database(app name)` when `store_database` is empty followed by `Table(t)` when
`store_table` is empty, where `t` is the first positional argument if there is
one and it is not the empty string, and the application name otherwise; the
authorization step then runs from that state. -/
theorem C3_store_defaults {ω : Type} (env : Collaborators ω) (ps : List (Plugin ω))
    (before : Hook ω) (ctx : Context) (s : HookState ω) (w1 : ω) (s2 : HookState ω)
    (hinit : succeedAll (ps.map (fun p => p.Init ctx)) s.world = some w1)
    (hbefore : before ctx (stateBeforePrior env ps.length ctx s w1) =
      (s2, Outcome.returned none)) :
    beforeHook env ps before ctx s =
      authStep env
        (if ctx.GetString "store_database" = "" ∨ ctx.GetString "store_table" = "" then
          { s2 with
            world := env.StoreInit
              ((if ctx.GetString "store_database" = "" then [StoreOption.Database env.AppName]
                else []) ++
               (if ctx.GetString "store_table" = "" then
                  [StoreOption.Table (match ctx.Args with
                    | [] => env.AppName
                    | a :: _ => if a = "" then env.AppName else a)]
                else [])) s2.world,
            trace := s2.trace ++ [Event.StoreInit
              ((if ctx.GetString "store_database" = "" then [StoreOption.Database env.AppName]
                else []) ++
               (if ctx.GetString "store_table" = "" then
                  [StoreOption.Table (match ctx.Args with
                    | [] => env.AppName
                    | a :: _ => if a = "" then env.AppName else a)]
                else []))] }
        else s2) := by
  have h := beforeHook_reaches_prior env ps before ctx s w1 hinit
  rw [hbefore] at h
  simp only at h
  rw [h]
  congr 1
  have hlen : ∀ x : String, x.length = 0 ↔ x = "" := fun x => by
    constructor
    · intro hx
      exact String.ext (List.length_eq_zero.mp hx)
    · intro hx
      subst hx
      rfl
  have hfirst : (if ctx.First.length > 0 then ctx.First else env.AppName) =
      (match ctx.Args with
        | [] => env.AppName
        | a :: _ => if a = "" then env.AppName else a) := by
    unfold Context.First
    cases ctx.Args with
    | nil => simp
    | cons a rest =>
      by_cases ha : a = ""
      · subst ha; simp
      · have : a.length ≠ 0 := fun hz => ha ((hlen a).mp hz)
        simp [ha, Nat.pos_of_ne_zero this]
  unfold storeStep storeOptions
  simp only [hfirst, hlen]
  by_cases hd : ctx.GetString "store_database" = "" <;>
    by_cases ht : ctx.GetString "store_table" = "" <;> simp [hd, ht]

theorem C3_store_defaults_witness :
    beforeHook (sampleEnv "service" []) [okPlugin] okPrior
        { flags := [], Args := ["orders"] } sampleState =
      authStep (sampleEnv "service" [])
        { stateBeforePrior (sampleEnv "service" []) 1 { flags := [], Args := ["orders"] }
            sampleState 1 with
          world := 101,
          trace := [Event.PluginInit 0, Event.SetupCommand,
            Event.StoreInit [StoreOption.Database "micro", StoreOption.Table "orders"]] } :=
  C3_store_defaults (sampleEnv "service" []) [okPlugin] okPrior
    { flags := [], Args := ["orders"] } sampleState 1 _ rfl rfl

/-- C6: in an invocation that reaches the authorization step (every plugin
`Init` and the prior hook succeeded; `s3` is the state after the store step):
when `Auth.String()` is not `"jwt"` no `Grant` is issued and the hook returns
nil; when it is `"jwt"` the hook grants the rules of `inauth.SystemRules` one
at a time in list order, returns nil with every rule granted when none fails,
and stops at the first failing `Grant`, returning exactly its error. -/
theorem C6_authorization_bootstrap {ω : Type} (env : Collaborators ω) (ps : List (Plugin ω))
    (before : Hook ω) (ctx : Context) (s : HookState ω) (w1 : ω) (s2 : HookState ω)
    (hinit : succeedAll (ps.map (fun p => p.Init ctx)) s.world = some w1)
    (hbefore : before ctx (stateBeforePrior env ps.length ctx s w1) =
      (s2, Outcome.returned none)) :
    (env.AuthString (storeStep env ctx s2).world ≠ "jwt" →
      beforeHook env ps before ctx s = (storeStep env ctx s2, Outcome.returned none)) ∧
    (env.AuthString (storeStep env ctx s2).world = "jwt" →
      (∀ w3, succeedAll (env.SystemRules.map (fun r => env.AuthGrant r))
          (storeStep env ctx s2).world = some w3 →
        beforeHook env ps before ctx s =
          ({ storeStep env ctx s2 with
              world := w3,
              trace := (storeStep env ctx s2).trace ++ env.SystemRules.map Event.Grant },
            Outcome.returned none)) ∧
      (∀ pre r post w3 w4 e, env.SystemRules = pre ++ r :: post →
        succeedAll (pre.map (fun q => env.AuthGrant q)) (storeStep env ctx s2).world = some w3 →
        env.AuthGrant r w3 = (w4, some e) →
        beforeHook env ps before ctx s =
          ({ storeStep env ctx s2 with
              world := w4,
              trace := (storeStep env ctx s2).trace ++ pre.map Event.Grant ++ [Event.Grant r] },
            Outcome.returned (some e)))) := by
  have h := beforeHook_reaches_prior env ps before ctx s w1 hinit
  rw [hbefore] at h
  simp only at h
  rw [h]
  refine ⟨fun hne => ?_, fun heq => ⟨fun w3 hok => ?_, fun pre r post w3 w4 e hsplit hok hr => ?_⟩⟩
  · simp [authStep, hne]
  · simp [authStep, heq, grantRules_ok env env.SystemRules _ w3 hok]
  · simp [authStep, heq, hsplit, grantRules_fail env pre r post _ w3 w4 e hok hr]

theorem C6_authorization_bootstrap_witness :
    beforeHook (sampleEnv "jwt" ["r1", "deny", "r3"]) [okPlugin] okPrior
        { flags := [("store_database", "db"), ("store_table", "tb")], Args := [] } sampleState =
      ({ storeStep (sampleEnv "jwt" ["r1", "deny", "r3"])
            { flags := [("store_database", "db"), ("store_table", "tb")], Args := [] }
            (stateBeforePrior (sampleEnv "jwt" ["r1", "deny", "r3"]) 1
              { flags := [("store_database", "db"), ("store_table", "tb")], Args := [] }
              sampleState 1) with
          world := 1001,
          trace := [Event.PluginInit 0, Event.SetupCommand] ++ ["r1"].map Event.Grant ++
            [Event.Grant "deny"] },
        Outcome.returned (some "denied")) :=
  ((C6_authorization_bootstrap (sampleEnv "jwt" ["r1", "deny", "r3"]) [okPlugin] okPrior
    { flags := [("store_database", "db"), ("store_table", "tb")], Args := [] } sampleState 1 _
    rfl rfl).2 rfl).2 ["r1"] "deny" ["r3"] 1001 1001 "denied" rfl rfl rfl

/-- C7: the fallback action, for every positional argument list: with no
argument it prints the missing-command message and exits with status 1; with a
first argument that `exec.LookPath` cannot resolve it prints the
unexpected-command message and exits with status 1 without spawning anything;
otherwise it spawns the resolved executable with exactly the remaining
arguments and returns the child's run result unchanged. -/
theorem C7_fallback_action (x : ExecEnv) (c : Context) :
    (c.Args = [] →
      fallbackAction x c = ([Event.Println (x.MissingCommand c)], Outcome.exited 1)) ∧
    (∀ a rest, c.Args = a :: rest →
      (∀ err, x.LookPath a = Except.error err →
        fallbackAction x c = ([Event.Println (x.UnexpectedCommand c)], Outcome.exited 1)) ∧
      (∀ v, x.LookPath a = Except.ok v →
        fallbackAction x c = ([Event.Spawn v rest], Outcome.returned (x.Run v rest)))) := by
  refine ⟨fun h => ?_, fun a rest h => ⟨fun err herr => ?_, fun v hv => ?_⟩⟩
  · simp [fallbackAction, h]
  · simp [fallbackAction, h, Context.First, herr]
  · simp [fallbackAction, h, Context.First, hv]

theorem C7_fallback_action_witness :
    fallbackAction sampleExec { flags := [], Args := ["stub", "-v", "x"] } =
      ([Event.Spawn "/usr/bin/stub" ["-v", "x"]], Outcome.returned (some "exit status 7")) :=
  ((C7_fallback_action sampleExec { flags := [], Args := ["stub", "-v", "x"] }).2
    "stub" ["-v", "x"] rfl).2 "/usr/bin/stub" rfl

/-- C8 (the code at the failing input): the flag is registered as `web_url` but
the hook reads `ctx.String("web_host")`, so with `web_url` set to
`web.example.com` and no flag called `web_host`, `web.Host` keeps its previous
value (here the empty string). -/
theorem C8_web_url_not_bound :
    ({ flags := [("web_url", "web.example.com")], Args := [] } : Context).GetString "web_url"
        = "web.example.com" ∧
      "web_url" ∈ (baseFlags "").map (fun f => f.Name) ∧
      "web_host" ∉ (baseFlags "").map (fun f => f.Name) ∧
      (bindFlags { flags := [("web_url", "web.example.com")], Args := [] } sampleState.cfg).webHost
        = "" := by
  decide

/-- The binding step on the seven other flags of C8 (and on `api_handler`): each
field takes the flag's value when it is non-empty and keeps its value otherwise. -/
theorem bindFlags_other_fields (ctx : Context) (cfg : Config) :
    (bindFlags ctx cfg).apiAddress =
        (if ctx.GetString "api_address" = "" then cfg.apiAddress
          else ctx.GetString "api_address") ∧
    (bindFlags ctx cfg).apiNamespace =
        (if ctx.GetString "api_namespace" = "" then cfg.apiNamespace
          else ctx.GetString "api_namespace") ∧
    (bindFlags ctx cfg).proxyAddress =
        (if ctx.GetString "proxy_address" = "" then cfg.proxyAddress
          else ctx.GetString "proxy_address") ∧
    (bindFlags ctx cfg).webAddress =
        (if ctx.GetString "web_address" = "" then cfg.webAddress
          else ctx.GetString "web_address") ∧
    (bindFlags ctx cfg).webNamespace =
        (if ctx.GetString "web_namespace" = "" then cfg.webNamespace
          else ctx.GetString "web_namespace") ∧
    (bindFlags ctx cfg).networkAddress =
        (if ctx.GetString "network_address" = "" then cfg.networkAddress
          else ctx.GetString "network_address") ∧
    (bindFlags ctx cfg).tunnelAddress =
        (if ctx.GetString "tunnel_address" = "" then cfg.tunnelAddress
          else ctx.GetString "tunnel_address") ∧
    (bindFlags ctx cfg).apiHandler =
        (if ctx.GetString "api_handler" = "" then cfg.apiHandler
          else ctx.GetString "api_handler") ∧
    (bindFlags ctx cfg).webHost =
        (if ctx.GetString "web_host" = "" then cfg.webHost
          else ctx.GetString "web_host") := by
  have hlen : ∀ x : String, x.length > 0 ↔ ¬ x = "" := fun x => by
    constructor
    · intro hx hx2
      subst hx2
      exact absurd hx (by decide)
    · intro hx
      exact Nat.pos_of_ne_zero (fun hz => hx (String.ext (List.length_eq_zero.mp hz)))
  refine ⟨?_, ?_, ?_, ?_, ?_, ?_, ?_, ?_, ?_⟩ <;>
    simp only [bindFlags, apply_ite Config.apiAddress, apply_ite Config.apiNamespace,
      apply_ite Config.proxyAddress, apply_ite Config.webAddress, apply_ite Config.webNamespace,
      apply_ite Config.networkAddress, apply_ite Config.tunnelAddress,
      apply_ite Config.apiHandler, apply_ite Config.webHost, ite_self, hlen, ite_not]

/-- C10 (the code at the failing input): the base flag `local` has no
environment-variable binding; it is the only base flag without one. -/
theorem C10_local_has_no_env_var (DefaultURL : String) :
    ((baseFlags DefaultURL).filter (fun f => f.EnvVars.isEmpty)).map (fun f => f.Name)
      = ["local"] := by
  rfl

end Micro
